import Mathlib

/-!
Verification of the topictrends core against its specification.

This file shallowly embeds the data structures and algorithms of the
topictrends repository (Rust) in Lean 4 and proves, or refutes, the frozen
claims about them.  Machine integers are modelled as `Nat`, with an explicit
`% 2^32` where an overflowing `u32` accumulation matters; `u64` accumulators
whose value provably stays below `2^64` in every real execution (sums of
fewer than `2^32` terms each below `2^32`) are modelled as plain `Nat`.
Fallible or panicking code paths are modelled with `Option` where a claim is
about them.  Stateful loops are modelled by explicit state passing
(`List.foldl`) or, for the graph traversals whose termination is itself a
claim, by a fuel-indexed step function.
-/

/-! ## Dense-ID map (`topictrend_core/src/direct_map.rs`)

`DirectMap` is a direct-addressed vector from `u32` keys to `u32` values with
`u32::MAX` as the "absent" sentinel. -/

/-- Definition of the sentinel `u32::MAX` used by `DirectMap` for "absent". -/
def SENTINEL : Nat := 4294967295

/-- Embedding of `DirectMap`: a vector indexed by key, `SENTINEL` = absent. -/
structure DirectMap where
  mapping : List Nat
deriving Repr, DecidableEq

/-- Embedding of `DirectMap::new`: all entries initialized to the sentinel. -/
def DirectMap.new (maxSize : Nat) : DirectMap :=
  ⟨List.replicate (maxSize + 1) SENTINEL⟩

/-- Embedding of `DirectMap::insert`: resize (filling with the sentinel) if the
key is beyond the current capacity, then store the value at index `key`. -/
def DirectMap.insert (m : DirectMap) (key value : Nat) : DirectMap :=
  let base :=
    if key ≥ m.mapping.length then
      m.mapping ++ List.replicate (key + 1 - m.mapping.length) SENTINEL
    else m.mapping
  ⟨base.set key value⟩

/-- Embedding of `DirectMap::get`: a stored value different from the sentinel. -/
def DirectMap.get (m : DirectMap) (key : Nat) : Option Nat :=
  match m.mapping[key]? with
  | some v => if v ≠ SENTINEL then some v else none
  | none => none

/-- Embedding of `DirectMap::keys`: indices holding a non-sentinel value. -/
def DirectMap.keysOf (m : DirectMap) : List Nat :=
  (m.mapping.enum.filterMap fun p => if p.2 ≠ SENTINEL then some p.1 else none)

theorem DirectMap.get_new (maxSize key : Nat) :
    (DirectMap.new maxSize).get key = none := by
  unfold DirectMap.get DirectMap.new
  rw [List.getElem?_replicate]
  by_cases h : key < maxSize + 1 <;> simp [h]

theorem DirectMap.length_insert_gt (m : DirectMap) (key value : Nat) :
    key < (m.insert key value).mapping.length := by
  unfold DirectMap.insert
  by_cases h : key ≥ m.mapping.length
  · simp [h]
    omega
  · simp [h]
    omega

theorem DirectMap.get_insert_self (m : DirectMap) (key value : Nat)
    (hv : value ≠ SENTINEL) : (m.insert key value).get key = some value := by
  have hlen := m.length_insert_gt key value
  unfold DirectMap.get
  unfold DirectMap.insert at hlen ⊢
  rw [List.getElem?_set]
  simp only [if_pos rfl]
  rw [List.length_set] at hlen
  rw [if_pos hlen]
  simp [hv]

theorem DirectMap.get_insert_ne (m : DirectMap) (key value key2 : Nat)
    (hne : key2 ≠ key) : (m.insert key value).get key2 = m.get key2 := by
  unfold DirectMap.get DirectMap.insert
  rw [List.getElem?_set, if_neg (fun h => hne h.symm)]
  by_cases h : key ≥ m.mapping.length
  · simp only [if_pos h]
    rw [List.getElem?_append]
    by_cases h2 : key2 < m.mapping.length
    · rw [if_pos h2]
    · rw [if_neg h2]
      rw [List.getElem?_replicate]
      by_cases h3 : key2 - m.mapping.length < key + 1 - m.mapping.length
      · simp only [if_pos h3]
        have : m.mapping[key2]? = none := by
          rw [List.getElem?_eq_none_iff]
          omega
        rw [this]
        simp
      · simp only [if_neg h3]
        have : m.mapping[key2]? = none := by
          rw [List.getElem?_eq_none_iff]
          omega
        rw [this]
  · simp only [if_neg h]

/-! ## Node loading (`GraphBuilder::load_nodes`, `topictrend_core/src/graphbuilder.rs`)

The id column of a node snapshot is a sequence of optional `u32` page ids.
Rows with a null id are skipped; every other row is assigned the next dense
id: its external id is pushed onto `dense_to_original` and the pair
(external, dense) is inserted into the `DirectMap`. -/

/-- One iteration of the `load_nodes` row loop: state is
(`dense_to_original`, mapper, `dense_counter`). -/
def loadNodesStep (st : List Nat × DirectMap × Nat) (optId : Option Nat) :
    List Nat × DirectMap × Nat :=
  match optId with
  | some id => (st.1 ++ [id], st.2.1.insert id st.2.2, st.2.2 + 1)
  | none => st

/-- Embedding of `GraphBuilder::load_nodes` over the decoded id column:
builds the dense-to-external vector and the external-to-dense `DirectMap`.
The initial map capacity is the row count, as in the source. -/
def loadNodes (ids : List (Option Nat)) : List Nat × DirectMap :=
  let st := ids.foldl loadNodesStep ([], DirectMap.new ids.length, 0)
  (st.1, st.2.1)

/-- Invariant carried through the `load_nodes` fold: the dense counter equals
the length of `dense_to_original`, every map entry round-trips through the
vector, and every processed id is present in the map. -/
theorem loadNodes_fold_invariant (rest : List (Option Nat)) :
    ∀ (dto : List Nat) (m : DirectMap),
    (∀ q d, m.get q = some d → dto[d]? = some q) →
    dto.length + (rest.filterMap (fun x => x)).length < SENTINEL →
    (let st := rest.foldl loadNodesStep (dto, m, dto.length)
     st.2.2 = st.1.length ∧
     (∀ q d, st.2.1.get q = some d → st.1[d]? = some q) ∧
     (∀ q, some q ∈ rest → (st.2.1.get q).isSome = true) ∧
     (∀ q, (m.get q).isSome = true → (st.2.1.get q).isSome = true)) := by
  induction rest with
  | nil =>
    intro dto m hmap _
    refine ⟨rfl, hmap, ?_, ?_⟩
    · intro q hq; simp at hq
    · intro q hq; exact hq
  | cons head tail ih =>
    intro dto m hmap hbound
    match head with
    | none =>
      have hb2 : dto.length + (tail.filterMap (fun x => x)).length < SENTINEL := by
        simpa using hbound
      have := ih dto m hmap hb2
      refine ⟨this.1, this.2.1, ?_, this.2.2.2⟩
      intro q hq
      rcases List.mem_cons.mp hq with h | h
      · exact absurd h (by simp)
      · exact this.2.2.1 q h
    | some id =>
      have hlt : dto.length < SENTINEL := by
        simp [List.filterMap_cons] at hbound
        omega
      have hb2 : (dto ++ [id]).length +
          (tail.filterMap (fun x => x)).length < SENTINEL := by
        simp [List.filterMap_cons] at hbound ⊢
        omega
      have hself : (m.insert id dto.length).get id = some dto.length :=
        m.get_insert_self id dto.length (by unfold SENTINEL at hlt ⊢; omega)
      have hmap2 : ∀ q d, (m.insert id dto.length).get q = some d →
          (dto ++ [id])[d]? = some q := by
        intro q d hget
        by_cases hq : q = id
        · subst hq
          rw [hself] at hget
          have hd : d = dto.length := by
            injection hget with h; omega
          subst hd
          rw [List.getElem?_append, if_neg (by omega)]
          simp
        · rw [m.get_insert_ne id dto.length q hq] at hget
          have := hmap q d hget
          have hdlt : d < dto.length := by
            by_contra hcon
            rw [List.getElem?_eq_none_iff.mpr (by omega)] at this
            exact Option.noConfusion this
          rw [List.getElem?_append, if_pos hdlt]
          exact this
      have := ih (dto ++ [id]) (m.insert id dto.length) hmap2 hb2
      simp only [List.foldl_cons, loadNodesStep, List.length_append,
        List.length_cons, List.length_nil] at this ⊢
      refine ⟨this.1, this.2.1, ?_, ?_⟩
      · intro q hq
        rcases List.mem_cons.mp hq with h | h
        · have hq2 : q = id := by injection h
          subst hq2
          exact this.2.2.2 q (by rw [hself]; rfl)
        · exact this.2.2.1 q h
      · intro q hq
        apply this.2.2.2 q
        by_cases hqid : q = id
        · subst hqid; rw [hself]; rfl
        · rw [m.get_insert_ne id dto.length q hqid]; exact hq

/-- C8: after node loading, every external QID `q` present in the snapshot's
id column satisfies `external_to_dense.get(q) = Some(d)` with `d` smaller than
the node count of its kind and `dense_to_external[d] = q`, even when the
snapshot repeats an id.  The hypothesis bounds the number of valid rows below
`u32::MAX` so that no dense id collides with the sentinel (the source stores
dense ids in a `u32` with `u32::MAX` reserved). -/
theorem loadNodes_roundtrip (ids : List (Option Nat)) (q : Nat)
    (hq : some q ∈ ids)
    (hbound : (ids.filterMap (fun x => x)).length < SENTINEL) :
    ∃ d, (loadNodes ids).2.get q = some d ∧ d < (loadNodes ids).1.length ∧
      (loadNodes ids).1[d]? = some q := by
  have hinit : ∀ r d, (DirectMap.new ids.length).get r = some d →
      ([] : List Nat)[d]? = some r := by
    intro r d h
    rw [DirectMap.get_new] at h
    exact Option.noConfusion h
  have hmain := loadNodes_fold_invariant ids [] (DirectMap.new ids.length)
    hinit (by simpa using hbound)
  simp only [List.length_nil] at hmain
  simp only [loadNodes]
  obtain ⟨-, hround, hpresent, -⟩ := hmain
  have hsome := hpresent q hq
  obtain ⟨d, hd⟩ := Option.isSome_iff_exists.mp hsome
  refine ⟨d, hd, ?_, hround q d hd⟩
  have := hround q d hd
  by_contra hcon
  rw [List.getElem?_eq_none_iff.mpr (by omega)] at this
  exact Option.noConfusion this

/-- Witness for `loadNodes_roundtrip` at a concrete snapshot that repeats
id 7: the repeated id resolves to a dense id that round-trips. -/
theorem loadNodes_roundtrip_witness :
    (some 7 ∈ [some 7, none, some 7, some 5]) ∧
    (([some 7, none, some 7, some 5].filterMap (fun x => x)).length < SENTINEL) ∧
    ∃ d, (loadNodes [some 7, none, some 7, some 5]).2.get 7 = some d ∧
      d < (loadNodes [some 7, none, some 7, some 5]).1.length ∧
      (loadNodes [some 7, none, some 7, some 5]).1[d]? = some 7 :=
  ⟨by decide, by decide,
    loadNodes_roundtrip [some 7, none, some 7, some 5] 7 (by decide) (by decide)⟩

/-! ## CSR adjacency (`topictrend_core/src/csr_adjacency.rs`)

`CsrAdjacency` stores `offsets` (length `num_nodes + 1`) and `targets`
(concatenated neighbor lists).  `get` is embedded with its panics made
explicit: `none` models a Rust panic (an out-of-bounds index or slice),
`some l` a normal return of the slice `l`. -/

/-- Embedding of the `CsrAdjacency` struct. -/
structure CsrAdjacency where
  offsets : List Nat
  targets : List Nat
deriving Repr, DecidableEq

/-- Embedding of `CsrAdjacency::get`.  The source looks up `offsets[id]` with
a checked `get` (absent → return the empty slice), then indexes
`offsets[id + 1]` and slices `targets[start..end]` directly; those two
unchecked operations panic when out of bounds, modelled by `none`. -/
def CsrAdjacency.get (c : CsrAdjacency) (id : Nat) : Option (List Nat) :=
  match c.offsets[id]? with
  | none => some []
  | some start =>
    match c.offsets[id + 1]? with
    | none => none
    | some stop =>
      if start ≤ stop ∧ stop ≤ c.targets.length then
        some ((c.targets.drop start).take (stop - start))
      else none

/-- Pass 1 of `CsrAdjacency::from_pairs`: count the outdegree of each source
below `num_nodes`; pairs with `source ≥ num_nodes` are skipped. -/
def csrCountsStep (n : Nat) (counts : List Nat) (p : Nat × Nat) : List Nat :=
  if p.1 < n then counts.set p.1 (counts.getD p.1 0 + 1) else counts

/-- Outdegree histogram of `from_pairs` (pass 1). -/
def csrCounts (n : Nat) (pairs : List (Nat × Nat)) : List Nat :=
  pairs.foldl (csrCountsStep n) (List.replicate n 0)

/-- Offsets of `from_pairs`: push 0, then push each running total. -/
def csrOffsets (counts : List Nat) : List Nat :=
  (counts.foldl (fun acc c => (acc.1 ++ [acc.2 + c], acc.2 + c)) ([0], 0)).1

/-- Pass 2 of `from_pairs`: write each destination at the source's cursor and
advance the cursor; state is (`targets`, `write_cursors`). -/
def csrWriteStep (n : Nat) (st : List Nat × List Nat) (p : Nat × Nat) :
    List Nat × List Nat :=
  if p.1 < n then
    let pos := st.2.getD p.1 0
    (st.1.set pos p.2, st.2.set p.1 (pos + 1))
  else st

/-- Embedding of `CsrAdjacency::from_pairs`: two-pass bucket construction. -/
def CsrAdjacency.fromPairs (n : Nat) (pairs : List (Nat × Nat)) : CsrAdjacency :=
  let counts := csrCounts n pairs
  let offsets := csrOffsets counts
  let totalEdges := offsets.getD n 0
  let st := pairs.foldl (csrWriteStep n) (List.replicate totalEdges 0, offsets)
  ⟨offsets, st.1⟩

/-- Specification-side view: the destinations of the pairs whose source is
`i`, in input order, duplicates preserved. -/
def dstsOf (i : Nat) (pairs : List (Nat × Nat)) : List Nat :=
  pairs.filterMap (fun p => if p.1 = i then some p.2 else none)

theorem dstsOf_append (i : Nat) (l1 l2 : List (Nat × Nat)) :
    dstsOf i (l1 ++ l2) = dstsOf i l1 ++ dstsOf i l2 :=
  List.filterMap_append l1 l2 _

theorem length_dstsOf_prefix_le (i : Nat) (ps rest : List (Nat × Nat)) :
    (dstsOf i ps).length ≤ (dstsOf i (ps ++ rest)).length := by
  rw [dstsOf_append]
  simp

theorem getD_set_self (l : List Nat) (j v d : Nat) (h : j < l.length) :
    (l.set j v).getD j d = v := by
  rw [List.getD_eq_getElem?_getD, List.getElem?_set, if_pos rfl, if_pos h]
  rfl

theorem getD_set_ne (l : List Nat) (i j v d : Nat) (h : j ≠ i) :
    (l.set j v).getD i d = l.getD i d := by
  rw [List.getD_eq_getElem?_getD, List.getElem?_set, if_neg h,
    ← List.getD_eq_getElem?_getD]

theorem dstsOf_cons (i : Nat) (p : Nat × Nat) (ps : List (Nat × Nat)) :
    dstsOf i (p :: ps) = (if p.1 = i then [p.2] else []) ++ dstsOf i ps := by
  unfold dstsOf
  rw [List.filterMap_cons]
  by_cases h : p.1 = i <;> simp [h]

/-- Running totals produced by the cumulative-sum loop of `from_pairs`. -/
def runningTotals (a : Nat) : List Nat → List Nat
  | [] => []
  | c :: cs => (a + c) :: runningTotals (a + c) cs

theorem csrOffsets_fold_eq (counts : List Nat) :
    ∀ (l : List Nat) (a : Nat),
    (counts.foldl (fun acc c => (acc.1 ++ [acc.2 + c], acc.2 + c)) (l, a)).1 =
      l ++ runningTotals a counts := by
  induction counts with
  | nil => intro l a; simp [runningTotals]
  | cons c cs ih =>
    intro l a
    simp only [List.foldl_cons]
    rw [ih]
    simp [runningTotals]

theorem csrOffsets_eq (counts : List Nat) :
    csrOffsets counts = 0 :: runningTotals 0 counts := by
  unfold csrOffsets
  rw [csrOffsets_fold_eq]
  rfl

theorem runningTotals_length (cs : List Nat) :
    ∀ a : Nat, (runningTotals a cs).length = cs.length := by
  induction cs with
  | nil => intro a; rfl
  | cons c cs ih => intro a; simp [runningTotals, ih]

theorem runningTotals_getElem (cs : List Nat) :
    ∀ (a i : Nat), i < cs.length →
    (runningTotals a cs)[i]? = some (a + (cs.take (i + 1)).sum) := by
  induction cs with
  | nil => intro a i h; simp at h
  | cons c cs ih =>
    intro a i h
    cases i with
    | zero => simp [runningTotals]
    | succ j =>
      simp only [runningTotals, List.getElem?_cons_succ]
      rw [ih (a + c) j (by simpa using h)]
      simp only [List.take_succ_cons, List.sum_cons]
      congr 1
      omega

theorem csrOffsets_length (counts : List Nat) :
    (csrOffsets counts).length = counts.length + 1 := by
  rw [csrOffsets_eq]
  simp [runningTotals_length]

theorem csrOffsets_getElem (counts : List Nat) (i : Nat) (h : i ≤ counts.length) :
    (csrOffsets counts)[i]? = some ((counts.take i).sum) := by
  rw [csrOffsets_eq]
  cases i with
  | zero => simp
  | succ j =>
    simp only [List.getElem?_cons_succ]
    rw [runningTotals_getElem counts 0 j (by omega)]
    simp

theorem csrCounts_fold_length (pairs : List (Nat × Nat)) (n : Nat) :
    ∀ init : List Nat,
    (pairs.foldl (csrCountsStep n) init).length = init.length := by
  induction pairs with
  | nil => intro init; rfl
  | cons p ps ih =>
    intro init
    simp only [List.foldl_cons, csrCountsStep]
    by_cases hp : p.1 < n
    · rw [if_pos hp, ih, List.length_set]
    · rw [if_neg hp, ih]

theorem csrCounts_length (n : Nat) (pairs : List (Nat × Nat)) :
    (csrCounts n pairs).length = n := by
  unfold csrCounts
  rw [csrCounts_fold_length]
  simp

theorem csrCounts_fold_getD (n i : Nat) (hi : i < n) (pairs : List (Nat × Nat)) :
    ∀ init : List Nat, init.length = n →
    (pairs.foldl (csrCountsStep n) init).getD i 0 =
      init.getD i 0 + (dstsOf i pairs).length := by
  induction pairs with
  | nil => intro init _; simp [dstsOf]
  | cons p ps ih =>
    intro init hlen
    simp only [List.foldl_cons, csrCountsStep]
    rw [dstsOf_cons]
    by_cases hp : p.1 < n
    · rw [if_pos hp, ih _ (by rw [List.length_set]; exact hlen)]
      by_cases hpi : p.1 = i
      · subst hpi
        rw [getD_set_self _ _ _ _ (by omega), if_pos rfl]
        simp only [List.length_append, List.length_cons, List.length_nil]
        omega
      · rw [getD_set_ne _ _ _ _ _ hpi, if_neg hpi]
        simp
    · rw [if_neg hp, ih _ hlen, if_neg (by omega)]
      simp

theorem csrCounts_getD (n i : Nat) (hi : i < n) (pairs : List (Nat × Nat)) :
    (csrCounts n pairs).getD i 0 = (dstsOf i pairs).length := by
  unfold csrCounts
  rw [csrCounts_fold_getD n i hi pairs _ (by simp)]
  simp [List.getD_eq_getElem?_getD, List.getElem?_replicate, hi]

/-- Offset of source `i` inside the `targets` array of `from_pairs n pairs`. -/
def offAt (n : Nat) (pairs : List (Nat × Nat)) (i : Nat) : Nat :=
  ((csrCounts n pairs).take i).sum

theorem sum_take_mono (l : List Nat) {i j : Nat} (h : i ≤ j) :
    (l.take i).sum ≤ (l.take j).sum := by
  induction j with
  | zero =>
    have : i = 0 := by omega
    subst this
    exact le_refl _
  | succ k ih =>
    by_cases hik : i = k + 1
    · subst hik; exact le_refl _
    · have h2 : i ≤ k := by omega
      refine le_trans (ih h2) ?_
      rw [List.take_succ, List.sum_append]
      exact Nat.le_add_right _ _

theorem offAt_succ (n : Nat) (pairs : List (Nat × Nat)) (i : Nat) (hi : i < n) :
    offAt n pairs (i + 1) = offAt n pairs i + (dstsOf i pairs).length := by
  unfold offAt
  rw [List.take_succ, List.sum_append]
  have hlt : i < (csrCounts n pairs).length := by rw [csrCounts_length]; exact hi
  have : (csrCounts n pairs)[i]? = some ((csrCounts n pairs).getD i 0) := by
    rw [List.getD_eq_getElem?_getD]
    rcases List.getElem?_eq_some_iff.mpr ⟨hlt, rfl⟩ with h
    rw [List.getElem?_eq_getElem hlt]
    rfl
  rw [this, csrCounts_getD n i hi pairs]
  simp

theorem offAt_mono (n : Nat) (pairs : List (Nat × Nat)) {i j : Nat} (h : i ≤ j) :
    offAt n pairs i ≤ offAt n pairs j :=
  sum_take_mono _ h

theorem dstsOf_snoc_self (i dv : Nat) (ps : List (Nat × Nat)) :
    dstsOf i (ps ++ [(i, dv)]) = dstsOf i ps ++ [dv] := by
  rw [dstsOf_append]
  unfold dstsOf
  simp

theorem dstsOf_snoc_ne (i s dv : Nat) (hne : s ≠ i) (ps : List (Nat × Nat)) :
    dstsOf i (ps ++ [(s, dv)]) = dstsOf i ps := by
  rw [dstsOf_append]
  unfold dstsOf
  simp [hne]

/-- Invariant of pass 2 of `from_pairs`: after processing a prefix `ps`, each
source's cursor sits at its offset plus the number of its destinations seen
so far, and the part of `targets` below each cursor already holds exactly
those destinations in input order. -/
theorem csrWrite_inv (n : Nat) (pairs : List (Nat × Nat)) :
    ∀ (rest ps : List (Nat × Nat)) (tg cur : List Nat),
    pairs = ps ++ rest →
    tg.length = offAt n pairs n →
    cur.length = n + 1 →
    (∀ i, i < n → cur.getD i 0 = offAt n pairs i + (dstsOf i ps).length) →
    (∀ i, i < n → ∀ m, m < (dstsOf i ps).length →
        tg[offAt n pairs i + m]? = (dstsOf i ps)[m]?) →
    ((rest.foldl (csrWriteStep n) (tg, cur)).1.length = offAt n pairs n ∧
     ∀ i, i < n → ∀ m, m < (dstsOf i pairs).length →
        (rest.foldl (csrWriteStep n) (tg, cur)).1[offAt n pairs i + m]? =
          (dstsOf i pairs)[m]?) := by
  intro rest
  induction rest with
  | nil =>
    intro ps tg cur hsplit htg hcur hcurD hseg
    simp only [List.foldl_nil]
    rw [List.append_nil] at hsplit
    subst hsplit
    exact ⟨htg, hseg⟩
  | cons p rest2 ih =>
    intro ps tg cur hsplit htg hcur hcurD hseg
    obtain ⟨s, dv⟩ := p
    simp only [List.foldl_cons]
    by_cases hp : s < n
    · -- the pair is written at the source's cursor
      have hpos : cur.getD s 0 = offAt n pairs s + (dstsOf s ps).length :=
        hcurD s hp
      have hstep : csrWriteStep n (tg, cur) (s, dv) =
          (tg.set (cur.getD s 0) dv, cur.set s (cur.getD s 0 + 1)) := by
        unfold csrWriteStep
        rw [if_pos hp]
      rw [hstep, hpos]
      -- the prefix bound: strictly fewer s-destinations seen than total
      have hklt : (dstsOf s ps).length < (dstsOf s pairs).length := by
        rw [hsplit, dstsOf_append, dstsOf_cons, if_pos rfl]
        simp only [List.length_append, List.singleton_append, List.length_cons]
        omega
      have hposlt :
          offAt n pairs s + (dstsOf s ps).length < offAt n pairs n := by
        have h1 := offAt_succ n pairs s hp
        have h2 := offAt_mono n pairs (show s + 1 ≤ n by omega)
        omega
      apply ih (ps ++ [(s, dv)]) _ _
        (by rw [hsplit, List.append_assoc]; rfl)
        (by rw [List.length_set]; exact htg)
        (by rw [List.length_set]; exact hcur)
      · -- cursors for the extended prefix
        intro i hi
        by_cases his : i = s
        · subst his
          rw [getD_set_self _ _ _ _ (by omega), dstsOf_snoc_self]
          simp only [List.length_append, List.length_cons, List.length_nil]
          omega
        · rw [getD_set_ne _ _ _ _ _ (fun h => his h.symm),
            dstsOf_snoc_ne i s dv (fun h => his h.symm)]
          exact hcurD i hi
      · -- target segments for the extended prefix
        intro i hi m hm
        by_cases his : i = s
        · subst his
          rw [dstsOf_snoc_self] at hm ⊢
          simp only [List.length_append, List.length_cons, List.length_nil]
            at hm
          by_cases hmk : m < (dstsOf i ps).length
          · -- below the cursor: untouched by this write
            rw [List.getElem?_set, if_neg (by omega), List.getElem?_append,
              if_pos hmk]
            exact hseg i hi m hmk
          · -- exactly at the cursor: the freshly written destination
            have hmeq : m = (dstsOf i ps).length := by omega
            subst hmeq
            rw [List.getElem?_set, if_pos rfl, if_pos (by omega),
              List.getElem?_append, if_neg (by omega)]
            simp
        · rw [dstsOf_snoc_ne i s dv (fun h => his h.symm)] at hm ⊢
          -- a different source: the write lands outside segment i
          have hpre : (dstsOf i ps).length ≤ (dstsOf i pairs).length := by
            rw [hsplit]
            exact length_dstsOf_prefix_le i ps ((s, dv) :: rest2)
          have hdisj : offAt n pairs i + m ≠
              offAt n pairs s + (dstsOf s ps).length := by
            rcases Nat.lt_or_ge i s with hlt | hge
            · have h1 := offAt_succ n pairs i hi
              have h2 := offAt_mono n pairs (show i + 1 ≤ s by omega)
              omega
            · have his2 : s < i := by omega
              have h1 := offAt_succ n pairs s hp
              have h2 := offAt_mono n pairs (show s + 1 ≤ i by omega)
              omega
          rw [List.getElem?_set, if_neg (fun h => hdisj h.symm)]
          exact hseg i hi m hm
    · -- source out of range: the pair is silently dropped
      have hstep : csrWriteStep n (tg, cur) (s, dv) = (tg, cur) := by
        unfold csrWriteStep
        rw [if_neg hp]
      rw [hstep]
      apply ih (ps ++ [(s, dv)]) tg cur
        (by rw [hsplit, List.append_assoc]; rfl) htg hcur
      · intro i hi
        rw [dstsOf_snoc_ne i s dv (by omega)]
        exact hcurD i hi
      · intro i hi m hm
        rw [dstsOf_snoc_ne i s dv (by omega)] at hm ⊢
        exact hseg i hi m hm

theorem csrTargets_spec (n : Nat) (pairs : List (Nat × Nat)) :
    ((pairs.foldl (csrWriteStep n)
        (List.replicate ((csrOffsets (csrCounts n pairs)).getD n 0) 0,
         csrOffsets (csrCounts n pairs))).1.length = offAt n pairs n ∧
     ∀ i, i < n → ∀ m, m < (dstsOf i pairs).length →
        (pairs.foldl (csrWriteStep n)
          (List.replicate ((csrOffsets (csrCounts n pairs)).getD n 0) 0,
           csrOffsets (csrCounts n pairs))).1[offAt n pairs i + m]? =
          (dstsOf i pairs)[m]?) := by
  have hlen : (csrCounts n pairs).length = n := csrCounts_length n pairs
  have htotal : (csrOffsets (csrCounts n pairs)).getD n 0 = offAt n pairs n := by
    rw [List.getD_eq_getElem?_getD, csrOffsets_getElem _ n (by omega)]
    rfl
  apply csrWrite_inv n pairs pairs [] _ _ rfl
  · rw [List.length_replicate, htotal]
  · rw [csrOffsets_length, hlen]
  · intro i hi
    rw [List.getD_eq_getElem?_getD, csrOffsets_getElem _ i (by omega)]
    simp [dstsOf, offAt]
  · intro i hi m hm
    simp [dstsOf] at hm

theorem CsrAdjacency.fromPairs_offsets (n : Nat) (pairs : List (Nat × Nat)) :
    (CsrAdjacency.fromPairs n pairs).offsets = csrOffsets (csrCounts n pairs) :=
  rfl

theorem CsrAdjacency.fromPairs_targets (n : Nat) (pairs : List (Nat × Nat)) :
    (CsrAdjacency.fromPairs n pairs).targets =
      (pairs.foldl (csrWriteStep n)
        (List.replicate ((csrOffsets (csrCounts n pairs)).getD n 0) 0,
         csrOffsets (csrCounts n pairs))).1 :=
  rfl

theorem CsrAdjacency.get_eq_slice (c : CsrAdjacency) (id a b : Nat)
    (h1 : c.offsets[id]? = some a) (h2 : c.offsets[id + 1]? = some b)
    (hab : a ≤ b) (hb : b ≤ c.targets.length) :
    c.get id = some ((c.targets.drop a).take (b - a)) := by
  unfold CsrAdjacency.get
  rw [h1, h2]
  dsimp only
  rw [if_pos ⟨hab, hb⟩]

/-- C5: the CSR built by `from_pairs(N, pairs)` satisfies, for each `i < N`,
that `get(i)` is exactly the sequence of destinations of the pairs whose
source is `i`, in input order with duplicate pairs preserved; pairs whose
source is `≥ N` contribute to no neighbor list (they are absent from every
`dstsOf i pairs` with `i < N`). -/
theorem CsrAdjacency.fromPairs_get (n : Nat) (pairs : List (Nat × Nat))
    (i : Nat) (hi : i < n) :
    (CsrAdjacency.fromPairs n pairs).get i = some (dstsOf i pairs) := by
  obtain ⟨hlen, hseg⟩ := csrTargets_spec n pairs
  have hcl : (csrCounts n pairs).length = n := csrCounts_length n pairs
  have hK := offAt_succ n pairs i hi
  have hget := CsrAdjacency.get_eq_slice (CsrAdjacency.fromPairs n pairs) i
    (offAt n pairs i) (offAt n pairs (i + 1))
    (by rw [CsrAdjacency.fromPairs_offsets]
        exact csrOffsets_getElem _ i (by omega))
    (by rw [CsrAdjacency.fromPairs_offsets]
        exact csrOffsets_getElem _ (i + 1) (by omega))
    (offAt_mono n pairs (by omega))
    (by rw [CsrAdjacency.fromPairs_targets, hlen]
        exact offAt_mono n pairs (by omega))
  rw [hget]
  congr 1
  apply List.ext_getElem?
  intro m
  rw [List.getElem?_take]
  by_cases hm : m < offAt n pairs (i + 1) - offAt n pairs i
  · rw [if_pos hm, List.getElem?_drop, CsrAdjacency.fromPairs_targets]
    exact hseg i hi m (by omega)
  · rw [if_neg hm, Eq.comm, List.getElem?_eq_none_iff]
    omega

/-- Witness for `CsrAdjacency.fromPairs_get`: on
`from_pairs(3, [(0,5),(2,7),(0,5),(4,9)])`, `get 0` returns the duplicated
destinations `[5, 5]` of source 0 in input order, and the pair with source
4 ≥ 3 is dropped. -/
theorem CsrAdjacency.fromPairs_get_witness :
    (0 < 3) ∧
    (CsrAdjacency.fromPairs 3 [(0, 5), (2, 7), (0, 5), (4, 9)]).get 0 =
      some [5, 5] := by
  refine ⟨by decide, ?_⟩
  rw [CsrAdjacency.fromPairs_get 3 [(0, 5), (2, 7), (0, 5), (4, 9)] 0
    (by decide)]
  rfl

/-- C4 (refuted, code bug): `CsrAdjacency::get` promises an empty slice for
every out-of-bounds id, but for the id equal to `num_nodes` it reads
`offsets[num_nodes + 1]`, one past the end, and panics (modelled as `none`);
ids strictly greater than `num_nodes` do return the empty slice.  On the CSR
of `from_pairs(2, [(0,1),(1,2)])`, `get 2` panics while `get 3` returns
the empty slice. -/
theorem CsrAdjacency.get_panics_at_num_nodes :
    (CsrAdjacency.fromPairs 2 [(0, 1), (1, 2)]).get 2 = none ∧
    (CsrAdjacency.fromPairs 2 [(0, 1), (1, 2)]).get 3 = some [] := by
  decide

/-! ## Article-category relation loading (`GraphBuilder::build`,
`topictrend_core/src/graphbuilder.rs`)

The build scans the `article_category` rows; for each row whose two QIDs are
both known it inserts the article's dense id into the category's bitmap
(`cat_articles`, a Roaring bitmap modelled as a `Finset Nat`).  The matching
insertion into the per-article list `article_cats` is commented out in the
source (marked `FIXME`), so `article_cats` keeps its initial all-empty
value.  The category dense id produced by the lookup is always below
`numCats` (a `load_nodes` invariant), so the direct index into
`cat_articles` is modelled with `List.set`. -/

/-- One row of the article-category scan of `GraphBuilder::build`. -/
def buildArticleCategoryStep (artLookup catLookup : Nat → Option Nat)
    (acc : List (Finset Nat) × List (List Nat))
    (row : Option Nat × Option Nat) : List (Finset Nat) × List (List Nat) :=
  match row with
  | (some aRaw, some cRaw) =>
    match artLookup aRaw, catLookup cRaw with
    | some aDense, some cDense =>
      (acc.1.set cDense (insert aDense (acc.1.getD cDense ∅)), acc.2)
    | _, _ => acc
  | _ => acc

/-- Embedding of the article-category scan of `GraphBuilder::build`: returns
(`cat_articles`, `article_cats`) after processing all rows. -/
def buildArticleCategory (numCats numArts : Nat)
    (artLookup catLookup : Nat → Option Nat)
    (rows : List (Option Nat × Option Nat)) :
    List (Finset Nat) × List (List Nat) :=
  rows.foldl (buildArticleCategoryStep artLookup catLookup)
    (List.replicate numCats (∅ : Finset Nat), List.replicate numArts [])

/-- C2 (refuted, code bug): on a snapshot with one known article (QID 5,
dense 0), one known category (QID 7, dense 0) and the single
`article_category` row (5, 7), the build inserts dense article 0 into the
bitmap of dense category 0, but the category never appears in the article's
`article_cats` list because the source comments that insertion out
(`FIXME`), so the bitmap and the per-article list do not encode the same
relation in both directions. -/
theorem buildArticleCategory_fixme :
    (0 ∈ (buildArticleCategory 1 1 (fun q => (loadNodes [some 5]).2.get q)
        (fun q => (loadNodes [some 7]).2.get q) [(some 5, some 7)]).1.getD 0 ∅)
    ∧ (buildArticleCategory 1 1 (fun q => (loadNodes [some 5]).2.get q)
        (fun q => (loadNodes [some 7]).2.get q) [(some 5, some 7)]).2.getD 0 []
      = [] := by
  decide

/-! ## Wiki graph traversals (`wikigraph.rs`)

The embedded graph carries the fields used by the traversal queries.  The
source stores `children` as per-node adjacency lists accessed with a checked
`get` (absent → no children), `cat_articles` as Roaring bitmaps (modelled as
`Finset Nat`), and the external-to-dense category map (modelled as a
function to `Option`).

Both traversals (`get_articles_in_category` and
`get_descendant_categories`) share the same worklist skeleton: pop
(node, depth) from a FIFO queue, collect the node, and if `depth <
max_depth` enqueue every not-yet-visited child at `depth + 1`, inserting it
into the visited set at enqueue time.  The skeleton is embedded once,
fuel-indexed (the Rust loop's termination is itself one of the claims), and
each traversal instantiates its collection function. -/

/-- Embedding of the wiki graph state used by the traversal queries. -/
structure WikiGraph where
  children : List (List Nat)
  catArticles : List (Finset Nat)
  catDenseToOriginal : List Nat
  catNames : List String
  catOriginalToDense : Nat → Option Nat

/-- Embedding of the child-enqueue loop shared by the traversals: for each
child not in the visited set, mark it visited and push (child, depth+1). -/
def enqueueChildren (visited : Finset Nat) (depth : Nat)
    (childList : List Nat) : List (Nat × Nat) × Finset Nat :=
  childList.foldl
    (fun acc c =>
      if c ∈ acc.2 then acc else (acc.1 ++ [(c, depth + 1)], insert c acc.2))
    ([], visited)

/-- Fuel-indexed embedding of the shared BFS worklist loop of `wikigraph.rs`
(`while let Some((curr, depth)) = queue.pop_front()`): collect the popped
node, then expand its children when `depth < max_depth`.  `collect`
instantiates the per-node action of the concrete traversal; fuel models the
iteration count of the source's unbounded loop. -/
def bfsGo {α : Type} (children : Nat → List Nat) (m : Nat)
    (collect : α → Nat → Nat → α) :
    Nat → List (Nat × Nat) → Finset Nat → α → α
  | 0, _, _, acc => acc
  | _ + 1, [], _, acc => acc
  | fuel + 1, (curr, depth) :: rest, visited, acc =>
    let acc2 := collect acc curr depth
    if depth < m then
      let eq2 := enqueueChildren visited depth (children curr)
      bfsGo children m collect fuel (rest ++ eq2.1) eq2.2 acc2
    else
      bfsGo children m collect fuel rest visited acc2

/-- Universe of all dense ids occurring in any adjacency list: every node the
BFS can ever enqueue (other than the start) lies in this finite set. -/
def childUniverse (g : WikiGraph) : Finset Nat :=
  g.children.flatten.toFinset

theorem mem_childUniverse (g : WikiGraph) (c x : Nat)
    (hx : x ∈ g.children.getD c []) : x ∈ childUniverse g := by
  unfold childUniverse
  rw [List.mem_toFinset, List.mem_flatten]
  rw [List.getD_eq_getElem?_getD] at hx
  cases hgc : g.children[c]? with
  | none => rw [hgc] at hx; simp at hx
  | some l =>
    rw [hgc] at hx
    obtain ⟨hlt, hval⟩ := List.getElem?_eq_some_iff.mp hgc
    exact ⟨l, hval ▸ List.getElem_mem hlt, hx⟩

/-- Characterization of the enqueue loop: it appends a duplicate-free block
of previously unvisited children at depth + 1 and marks exactly those
children visited. -/
theorem enqueueChildren_spec (childList : List Nat) :
    ∀ (accL : List (Nat × Nat)) (v : Finset Nat) (depth : Nat),
    ∃ new : List Nat,
      (childList.foldl
        (fun acc c =>
          if c ∈ acc.2 then acc
          else (acc.1 ++ [(c, depth + 1)], insert c acc.2)) (accL, v)) =
        (accL ++ new.map (fun c => (c, depth + 1)), v ∪ new.toFinset) ∧
      new.Nodup ∧ (∀ c ∈ new, c ∈ childList ∧ c ∉ v) := by
  induction childList with
  | nil =>
    intro accL v depth
    exact ⟨[], by simp, List.nodup_nil, by simp⟩
  | cons c cs ih =>
    intro accL v depth
    simp only [List.foldl_cons]
    by_cases hc : c ∈ v
    · rw [if_pos hc]
      obtain ⟨new, heq, hnd, hmem⟩ := ih accL v depth
      refine ⟨new, heq, hnd, fun x hx => ⟨List.mem_cons_of_mem c (hmem x hx).1,
        (hmem x hx).2⟩⟩
    · rw [if_neg hc]
      obtain ⟨new2, heq, hnd, hmem⟩ := ih (accL ++ [(c, depth + 1)])
        (insert c v) depth
      refine ⟨c :: new2, ?_, ?_, ?_⟩
      · rw [heq]
        refine Prod.ext ?_ ?_
        · simp
        · show insert c v ∪ new2.toFinset = v ∪ (c :: new2).toFinset
          rw [List.toFinset_cons, Finset.union_insert, Finset.insert_union]
      · rw [List.nodup_cons]
        refine ⟨fun hcn => ?_, hnd⟩
        exact (hmem c hcn).2 (Finset.mem_insert_self c v)
      · intro x hx
        rcases List.mem_cons.mp hx with h | h
        · subst h; exact ⟨List.mem_cons_self x cs, hc⟩
        · obtain ⟨h1, h2⟩ := hmem x h
          exact ⟨List.mem_cons_of_mem c h1,
            fun hv => h2 (Finset.mem_insert_of_mem hv)⟩

theorem card_sdiff_union (U v S : Finset Nat) (hSU : S ⊆ U \ v) :
    (U \ (v ∪ S)).card + S.card = (U \ v).card := by
  have h1 : U \ (v ∪ S) = (U \ v) \ S := by
    ext x
    simp only [Finset.mem_sdiff, Finset.mem_union]
    tauto
  rw [h1, Finset.card_sdiff hSU]
  have := Finset.card_le_card hSU
  omega

theorem bfsGo_nil {α : Type} (children : Nat → List Nat) (m : Nat)
    (collect : α → Nat → Nat → α) (k : Nat) (v : Finset Nat) (acc : α) :
    bfsGo children m collect k [] v acc = acc := by
  cases k <;> rfl

/-- Termination of the worklist loop: once the fuel reaches the measure
(queue length plus twice the number of never-visited universe nodes), adding
more fuel does not change the result — i.e. the loop finishes within that
many iterations on every graph, cyclic ones included. -/
theorem bfsGo_fuel_stable {α : Type} (children : Nat → List Nat) (m : Nat)
    (collect : α → Nat → Nat → α) (U : Finset Nat)
    (hU : ∀ c x, x ∈ children c → x ∈ U) (fuel : Nat) :
    ∀ (q : List (Nat × Nat)) (v : Finset Nat) (acc : α),
    q.length + 2 * ((U \ v).card) ≤ fuel →
    bfsGo children m collect (fuel + 1) q v acc =
      bfsGo children m collect fuel q v acc := by
  induction fuel using Nat.strong_induction_on with
  | _ fuel ih =>
    intro q v acc hfuel
    match q with
    | [] => rw [bfsGo_nil, bfsGo_nil]
    | (curr, depth) :: rest =>
      have hfl : 1 ≤ fuel := by
        simp only [List.length_cons] at hfuel
        omega
      obtain ⟨f, rfl⟩ : ∃ f, fuel = f + 1 := ⟨fuel - 1, by omega⟩
      simp only [List.length_cons] at hfuel
      by_cases hd : depth < m
      · obtain ⟨new, heq, hnd, hmem⟩ :=
          enqueueChildren_spec (children curr) [] v depth
        have henq : enqueueChildren v depth (children curr) =
            (new.map (fun c => (c, depth + 1)), v ∪ new.toFinset) := by
          unfold enqueueChildren
          rw [heq, List.nil_append]
        simp only [bfsGo, henq, if_pos hd]
        have hSU : new.toFinset ⊆ U \ v := by
          intro x hx
          rw [List.mem_toFinset] at hx
          obtain ⟨hx1, hx2⟩ := hmem x hx
          rw [Finset.mem_sdiff]
          exact ⟨hU curr x hx1, hx2⟩
        have hcard := card_sdiff_union U v new.toFinset hSU
        have hcardS : new.toFinset.card = new.length :=
          List.toFinset_card_of_nodup hnd
        apply ih f (by omega)
        simp only [List.length_append, List.length_map]
        omega
      · simp only [bfsGo, if_neg hd]
        apply ih f (by omega)
        omega

/-- Any fuel at or above the measure yields the measure-fuel result. -/
theorem bfsGo_fuel_congr {α : Type} (children : Nat → List Nat) (m : Nat)
    (collect : α → Nat → Nat → α) (U : Finset Nat)
    (hU : ∀ c x, x ∈ children c → x ∈ U) (f : Nat) :
    ∀ (q : List (Nat × Nat)) (v : Finset Nat) (acc : α),
    q.length + 2 * ((U \ v).card) ≤ f →
    bfsGo children m collect f q v acc =
      bfsGo children m collect (q.length + 2 * ((U \ v).card)) q v acc := by
  induction f with
  | zero =>
    intro q v acc h
    have h0 : q.length + 2 * ((U \ v).card) = 0 := by omega
    rw [h0]
  | succ f ih =>
    intro q v acc h
    by_cases heq : q.length + 2 * ((U \ v).card) = f + 1
    · rw [heq]
    · have hle : q.length + 2 * ((U \ v).card) ≤ f := by omega
      rw [bfsGo_fuel_stable children m collect U hU f q v acc hle]
      exact ih q v acc hle

/-- The worklist loop run to completion (fuel = its measure). -/
def bfsRun {α : Type} (children : Nat → List Nat) (m : Nat)
    (collect : α → Nat → Nat → α) (U : Finset Nat)
    (q : List (Nat × Nat)) (v : Finset Nat) (acc : α) : α :=
  bfsGo children m collect (q.length + 2 * ((U \ v).card)) q v acc

theorem bfsRun_nil {α : Type} (children : Nat → List Nat) (m : Nat)
    (collect : α → Nat → Nat → α) (U : Finset Nat) (v : Finset Nat) (acc : α) :
    bfsRun children m collect U [] v acc = acc := by
  unfold bfsRun
  rw [bfsGo_nil]

/-- One-step unfolding of the completed run. -/
theorem bfsRun_cons {α : Type} (children : Nat → List Nat) (m : Nat)
    (collect : α → Nat → Nat → α) (U : Finset Nat)
    (hU : ∀ c x, x ∈ children c → x ∈ U)
    (curr depth : Nat) (rest : List (Nat × Nat)) (v : Finset Nat) (acc : α) :
    bfsRun children m collect U ((curr, depth) :: rest) v acc =
      (if depth < m then
        bfsRun children m collect U
          (rest ++ (enqueueChildren v depth (children curr)).1)
          (enqueueChildren v depth (children curr)).2
          (collect acc curr depth)
      else
        bfsRun children m collect U rest v (collect acc curr depth)) := by
  unfold bfsRun
  have hf : ((curr, depth) :: rest).length + 2 * ((U \ v).card) =
      (rest.length + 2 * ((U \ v).card)) + 1 := by
    simp only [List.length_cons]
    omega
  rw [hf]
  by_cases hd : depth < m
  · obtain ⟨new, heq, hnd, hmem⟩ :=
      enqueueChildren_spec (children curr) [] v depth
    have henq : enqueueChildren v depth (children curr) =
        (new.map (fun c => (c, depth + 1)), v ∪ new.toFinset) := by
      unfold enqueueChildren
      rw [heq, List.nil_append]
    simp only [bfsGo, henq, if_pos hd]
    have hSU : new.toFinset ⊆ U \ v := by
      intro x hx
      rw [List.mem_toFinset] at hx
      obtain ⟨hx1, hx2⟩ := hmem x hx
      rw [Finset.mem_sdiff]
      exact ⟨hU curr x hx1, hx2⟩
    have hcard := card_sdiff_union U v new.toFinset hSU
    have hcardS : new.toFinset.card = new.length :=
      List.toFinset_card_of_nodup hnd
    rw [bfsGo_fuel_congr children m collect U hU _ _ _ _
      (by simp only [List.length_append, List.length_map]; omega)]
  · simp only [bfsGo, if_neg hd]

/-- Queue entries of a node list, all at the same depth. -/
def entriesAt (k : Nat) (front : List Nat) : List (Nat × Nat) :=
  front.map (fun c => (c, k))

/-- Depth-erased version of the enqueue loop. -/
def enqueueNodes (v : Finset Nat) (childList : List Nat) :
    List Nat × Finset Nat :=
  childList.foldl
    (fun acc c => if c ∈ acc.2 then acc else (acc.1 ++ [c], insert c acc.2))
    ([], v)

theorem enqueueChildren_eq_nodes_aux (childList : List Nat) :
    ∀ (v : Finset Nat) (depth : Nat) (accN : List Nat),
    childList.foldl
      (fun acc c =>
        if c ∈ acc.2 then acc
        else (acc.1 ++ [(c, depth + 1)], insert c acc.2))
      (entriesAt (depth + 1) accN, v) =
    (entriesAt (depth + 1)
        (childList.foldl
          (fun acc c =>
            if c ∈ acc.2 then acc else (acc.1 ++ [c], insert c acc.2))
          (accN, v)).1,
      (childList.foldl
        (fun acc c =>
          if c ∈ acc.2 then acc else (acc.1 ++ [c], insert c acc.2))
        (accN, v)).2) := by
  induction childList with
  | nil => intro v depth accN; rfl
  | cons c cs ih =>
    intro v depth accN
    simp only [List.foldl_cons]
    by_cases hc : c ∈ v
    · simp only [if_pos hc]
      exact ih v depth accN
    · simp only [if_neg hc]
      have hsnoc : entriesAt (depth + 1) accN ++ [(c, depth + 1)] =
          entriesAt (depth + 1) (accN ++ [c]) := by
        unfold entriesAt
        simp
      rw [hsnoc]
      exact ih (insert c v) depth (accN ++ [c])

theorem enqueueChildren_eq_nodes (v : Finset Nat) (depth : Nat)
    (childList : List Nat) :
    enqueueChildren v depth childList =
      (entriesAt (depth + 1) (enqueueNodes v childList).1,
        (enqueueNodes v childList).2) := by
  unfold enqueueChildren enqueueNodes
  exact enqueueChildren_eq_nodes_aux childList v depth []

/-- Expansion of a whole BFS level: successive `enqueueNodes` runs threaded
through the visited set, concatenating the fresh nodes. -/
def levelExpand (children : Nat → List Nat) (front : List Nat)
    (v : Finset Nat) : List Nat × Finset Nat :=
  front.foldl
    (fun st c =>
      (st.1 ++ (enqueueNodes st.2 (children c)).1,
        (enqueueNodes st.2 (children c)).2))
    ([], v)

/-- Collection over a whole BFS level. -/
def levelCollect {α : Type} (collect : α → Nat → Nat → α) (k : Nat)
    (front : List Nat) (acc : α) : α :=
  front.foldl (fun a c => collect a c k) acc

/-- Level-synchronous view of the worklist loop: `j` remaining expansion
levels, current level at depth `k`. -/
def levelLoop {α : Type} (children : Nat → List Nat)
    (collect : α → Nat → Nat → α) :
    Nat → Nat → List Nat → Finset Nat → α → α
  | k, 0, front, _, acc => levelCollect collect k front acc
  | k, j + 1, front, v, acc =>
    levelLoop children collect (k + 1) j (levelExpand children front v).1
      (levelExpand children front v).2 (levelCollect collect k front acc)

theorem levelExpand_fold_shift (children : Nat → List Nat)
    (front : List Nat) :
    ∀ (accF : List Nat) (v : Finset Nat),
    front.foldl
      (fun st c =>
        (st.1 ++ (enqueueNodes st.2 (children c)).1,
          (enqueueNodes st.2 (children c)).2)) (accF, v) =
      (accF ++ (levelExpand children front v).1,
        (levelExpand children front v).2) := by
  induction front with
  | nil => intro accF v; simp [levelExpand]
  | cons c cs ih =>
    intro accF v
    unfold levelExpand
    simp only [List.foldl_cons, List.nil_append]
    rw [ih, ih (enqueueNodes v (children c)).1]
    simp [List.append_assoc]

theorem levelExpand_cons (children : Nat → List Nat) (c : Nat)
    (cs : List Nat) (v : Finset Nat) :
    levelExpand children (c :: cs) v =
      ((enqueueNodes v (children c)).1 ++
          (levelExpand children cs (enqueueNodes v (children c)).2).1,
        (levelExpand children cs (enqueueNodes v (children c)).2).2) := by
  unfold levelExpand
  simp only [List.foldl_cons, List.nil_append]
  rw [levelExpand_fold_shift]
  rfl

/-- Draining one full expansion level (`k < m`): processing all depth-`k`
entries collects their payload, expands them into the next level and leaves
a queue consisting solely of depth-`k+1` entries. -/
theorem bfsRun_drain_expand {α : Type} (children : Nat → List Nat) (m : Nat)
    (collect : α → Nat → Nat → α) (U : Finset Nat)
    (hU : ∀ c x, x ∈ children c → x ∈ U) (k : Nat) (hk : k < m) :
    ∀ (frontA frontB : List Nat) (v : Finset Nat) (acc : α),
    bfsRun children m collect U
        (entriesAt k frontA ++ entriesAt (k + 1) frontB) v acc =
      bfsRun children m collect U
        (entriesAt (k + 1) (frontB ++ (levelExpand children frontA v).1))
        (levelExpand children frontA v).2
        (levelCollect collect k frontA acc) := by
  intro frontA
  induction frontA with
  | nil =>
    intro frontB v acc
    simp only [entriesAt, List.map_nil, List.nil_append]
    unfold levelExpand levelCollect
    simp
  | cons c cs ih =>
    intro frontB v acc
    have hhead : entriesAt k (c :: cs) ++ entriesAt (k + 1) frontB =
        (c, k) :: (entriesAt k cs ++ entriesAt (k + 1) frontB) := rfl
    rw [hhead, bfsRun_cons children m collect U hU, if_pos hk,
      enqueueChildren_eq_nodes]
    have hq : (entriesAt k cs ++ entriesAt (k + 1) frontB) ++
        entriesAt (k + 1) (enqueueNodes v (children c)).1 =
        entriesAt k cs ++
          entriesAt (k + 1) (frontB ++ (enqueueNodes v (children c)).1) := by
      unfold entriesAt
      simp [List.append_assoc]
    rw [hq, ih]
    rw [levelExpand_cons]
    have hfr : (frontB ++ (enqueueNodes v (children c)).1) ++
        (levelExpand children cs (enqueueNodes v (children c)).2).1 =
        frontB ++ ((enqueueNodes v (children c)).1 ++
          (levelExpand children cs (enqueueNodes v (children c)).2).1) := by
      simp [List.append_assoc]
    rw [hfr]
    rfl

/-- Draining the final level (`m ≤ k`): no expansion happens, the run just
collects the remaining entries. -/
theorem bfsRun_drain_final {α : Type} (children : Nat → List Nat) (m : Nat)
    (collect : α → Nat → Nat → α) (U : Finset Nat)
    (hU : ∀ c x, x ∈ children c → x ∈ U) (k : Nat) (hk : m ≤ k) :
    ∀ (frontA : List Nat) (v : Finset Nat) (acc : α),
    bfsRun children m collect U (entriesAt k frontA) v acc =
      levelCollect collect k frontA acc := by
  intro frontA
  induction frontA with
  | nil =>
    intro v acc
    simp only [entriesAt, List.map_nil]
    rw [bfsRun_nil]
    rfl
  | cons c cs ih =>
    intro v acc
    have hhead : entriesAt k (c :: cs) = (c, k) :: entriesAt k cs := rfl
    rw [hhead, bfsRun_cons children m collect U hU, if_neg (by omega)]
    exact ih v (collect acc c k)

/-- The completed worklist run equals the level-synchronous loop. -/
theorem bfsRun_eq_levelLoop {α : Type} (children : Nat → List Nat) (m : Nat)
    (collect : α → Nat → Nat → α) (U : Finset Nat)
    (hU : ∀ c x, x ∈ children c → x ∈ U) :
    ∀ (j k : Nat), k + j = m →
    ∀ (front : List Nat) (v : Finset Nat) (acc : α),
    bfsRun children m collect U (entriesAt k front) v acc =
      levelLoop children collect k j front v acc := by
  intro j
  induction j with
  | zero =>
    intro k hk front v acc
    rw [bfsRun_drain_final children m collect U hU k (by omega)]
    rfl
  | succ j ih =>
    intro k hk front v acc
    have h1 : entriesAt k front =
        entriesAt k front ++ entriesAt (k + 1) [] := by
      simp [entriesAt]
    rw [h1, bfsRun_drain_expand children m collect U hU k (by omega),
      ih (k + 1) (by omega)]
    simp only [List.nil_append]
    rfl

/-- Adjacency lookup of the wiki graph: checked get, absent → no children. -/
def childrenOf (g : WikiGraph) : Nat → List Nat :=
  fun c => g.children.getD c []

/-- Collection step of `get_articles_in_category`: union the visited
category's article bitmap (checked get, absent → nothing) into the result. -/
def articlesCollect (g : WikiGraph) : Finset Nat → Nat → Nat → Finset Nat :=
  fun acc curr _ => acc ∪ g.catArticles.getD curr ∅

/-- Collection step of `get_descendant_categories`: record
(original id, name, depth) for every visited node other than the start. -/
def descCollect (g : WikiGraph) (startNode : Nat) :
    List (Nat × String × Nat) → Nat → Nat → List (Nat × String × Nat) :=
  fun results curr depth =>
    if curr ≠ startNode then
      results ++
        [(g.catDenseToOriginal.getD curr 0, g.catNames.getD curr "", depth)]
    else results

/-- Fuel that provably suffices for every traversal of `g` from one start
node (see `bfsGo_fuel_congr`). -/
def traversalFuel (g : WikiGraph) : Nat := 1 + 2 * (childUniverse g).card

/-- Embedding of `WikiGraph::get_articles_in_category` (`src/wikigraph.rs`),
the dense-mask query the engine invokes as
`get_articles_in_category_as_dense`: resolve the category QID (unknown →
empty result), then BFS from the start node to `maxDepth`, unioning each
visited category's article bitmap. -/
def getArticlesInCategory (g : WikiGraph) (wikiCatId maxDepth : Nat) :
    Finset Nat :=
  match g.catOriginalToDense wikiCatId with
  | none => ∅
  | some startNode =>
    bfsGo (childrenOf g) maxDepth (articlesCollect g) (traversalFuel g)
      [(startNode, 0)] {startNode} ∅

/-- Embedding of `WikiGraph::get_descendant_categories`. -/
def getDescendantCategories (g : WikiGraph) (wikiCatId maxDepth : Nat) :
    List (Nat × String × Nat) :=
  match g.catOriginalToDense wikiCatId with
  | none => []
  | some startNode =>
    bfsGo (childrenOf g) maxDepth (descCollect g startNode) (traversalFuel g)
      [(startNode, 0)] {startNode} []

theorem bfsGo_traversalFuel_eq_run {α : Type} (g : WikiGraph) (m : Nat)
    (collect : α → Nat → Nat → α) (startNode f : Nat)
    (hf : traversalFuel g ≤ f) (acc : α) :
    bfsGo (childrenOf g) m collect f [(startNode, 0)] {startNode} acc =
      bfsRun (childrenOf g) m collect (childUniverse g)
        [(startNode, 0)] {startNode} acc := by
  have hU : ∀ c x, x ∈ childrenOf g c → x ∈ childUniverse g :=
    fun c x hx => mem_childUniverse g c x hx
  have hcard : (childUniverse g \ {startNode}).card ≤
      (childUniverse g).card :=
    Finset.card_le_card Finset.sdiff_subset
  have hm : ([(startNode, 0)] : List (Nat × Nat)).length +
      2 * ((childUniverse g \ {startNode}).card) ≤ f := by
    unfold traversalFuel at hf
    simp only [List.length_cons, List.length_nil]
    omega
  rw [bfsGo_fuel_congr (childrenOf g) m collect (childUniverse g) hU f _ _ _
    hm]
  rfl

theorem subset_levelCollect_arts (g : WikiGraph) (k : Nat)
    (front : List Nat) :
    ∀ acc : Finset Nat,
    acc ⊆ levelCollect (articlesCollect g) k front acc := by
  induction front with
  | nil => intro acc; exact Finset.Subset.refl acc
  | cons c cs ih =>
    intro acc
    have h1 : acc ⊆ acc ∪ g.catArticles.getD c ∅ := Finset.subset_union_left
    exact h1.trans (ih (acc ∪ g.catArticles.getD c ∅))

theorem levelLoop_arts_mono_depth (g : WikiGraph) :
    ∀ (j k : Nat) (front : List Nat) (v acc : Finset Nat),
    levelLoop (childrenOf g) (articlesCollect g) k j front v acc ⊆
      levelLoop (childrenOf g) (articlesCollect g) k (j + 1) front v acc := by
  intro j
  induction j with
  | zero =>
    intro k front v acc
    exact subset_levelCollect_arts g (k + 1)
      (levelExpand (childrenOf g) front v).1
      (levelCollect (articlesCollect g) k front acc)
  | succ j ih =>
    intro k front v acc
    exact ih (k + 1) (levelExpand (childrenOf g) front v).1
      (levelExpand (childrenOf g) front v).2
      (levelCollect (articlesCollect g) k front acc)

/-- C6: for every category QID and every depth, the article set of
`articles_in_category` at depth `d + 1` is a superset of the one at depth
`d`, on every graph including cyclic ones. -/
theorem getArticlesInCategory_superset_succ_depth (g : WikiGraph)
    (c d : Nat) :
    getArticlesInCategory g c d ⊆ getArticlesInCategory g c (d + 1) := by
  unfold getArticlesInCategory
  cases hres : g.catOriginalToDense c with
  | none => exact Finset.Subset.refl ∅
  | some s =>
    have hU : ∀ a x, x ∈ childrenOf g a → x ∈ childUniverse g :=
      fun a x hx => mem_childUniverse g a x hx
    dsimp only
    rw [bfsGo_traversalFuel_eq_run g d (articlesCollect g) s
        (traversalFuel g) (le_refl _) ∅,
      bfsGo_traversalFuel_eq_run g (d + 1) (articlesCollect g) s
        (traversalFuel g) (le_refl _) ∅]
    have he : ([(s, 0)] : List (Nat × Nat)) = entriesAt 0 [s] := rfl
    rw [he, bfsRun_eq_levelLoop (childrenOf g) d (articlesCollect g)
        (childUniverse g) hU d 0 (by omega),
      bfsRun_eq_levelLoop (childrenOf g) (d + 1) (articlesCollect g)
        (childUniverse g) hU (d + 1) 0 (by omega)]
    exact levelLoop_arts_mono_depth g d 0 [s] {s} ∅

/-- Trace of the worklist loop: the sequence of nodes popped from the queue
(each popped node is the one the iteration collects and, when its depth
allows, expands).  Shared by both traversals, whose expansion logic is
identical. -/
def bfsTrace (children : Nat → List Nat) (m : Nat) :
    Nat → List (Nat × Nat) → Finset Nat → List Nat
  | 0, _, _ => []
  | _ + 1, [], _ => []
  | fuel + 1, (curr, depth) :: rest, visited =>
    if depth < m then
      curr :: bfsTrace children m fuel
        (rest ++ (enqueueChildren visited depth (children curr)).1)
        (enqueueChildren visited depth (children curr)).2
    else
      curr :: bfsTrace children m fuel rest visited

theorem map_fst_entries (depth : Nat) (l : List Nat) :
    (l.map (fun c => (c, depth + 1))).map Prod.fst = l := by
  induction l with
  | nil => rfl
  | cons a tl ihl => simp [ihl]

/-- The visited set makes each node appear at most once in the trace: the
queue never holds duplicates, every queued node is already marked visited,
and a popped node can never be re-enqueued. -/
theorem bfsTrace_nodup (children : Nat → List Nat) (m : Nat) :
    ∀ (fuel : Nat) (q : List (Nat × Nat)) (v : Finset Nat),
    (q.map Prod.fst).Nodup → (∀ x ∈ q.map Prod.fst, x ∈ v) →
    (bfsTrace children m fuel q v).Nodup ∧
    (∀ x ∈ bfsTrace children m fuel q v,
      x ∈ q.map Prod.fst ∨ x ∉ v) := by
  intro fuel
  induction fuel with
  | zero =>
    intro q v _ _
    have hnil : bfsTrace children m 0 q v = [] := rfl
    rw [hnil]
    refine ⟨List.nodup_nil, ?_⟩
    intro x hx
    simp at hx
  | succ fuel ih =>
    intro q v hnd hsub
    match q with
    | [] =>
      have hnil : bfsTrace children m (fuel + 1) [] v = [] := rfl
      rw [hnil]
      refine ⟨List.nodup_nil, ?_⟩
      intro x hx
      simp at hx
    | (curr, depth) :: rest =>
      have hcurrv : curr ∈ v := hsub curr (by simp)
      have hcurrnotin : curr ∉ rest.map Prod.fst := by
        simp only [List.map_cons, List.nodup_cons] at hnd
        exact hnd.1
      have hndrest : (rest.map Prod.fst).Nodup := by
        simp only [List.map_cons, List.nodup_cons] at hnd
        exact hnd.2
      have hunf : bfsTrace children m (fuel + 1) ((curr, depth) :: rest) v =
          (if depth < m then
            curr :: bfsTrace children m fuel
              (rest ++ (enqueueChildren v depth (children curr)).1)
              (enqueueChildren v depth (children curr)).2
          else curr :: bfsTrace children m fuel rest v) := rfl
      rw [hunf]
      by_cases hd : depth < m
      · rw [if_pos hd]
        obtain ⟨new, heq, hndnew, hmemnew⟩ :=
          enqueueChildren_spec (children curr) [] v depth
        have henq : enqueueChildren v depth (children curr) =
            (new.map (fun c => (c, depth + 1)), v ∪ new.toFinset) := by
          unfold enqueueChildren
          rw [heq, List.nil_append]
        have hmapq2 : ((rest ++
            (enqueueChildren v depth (children curr)).1).map Prod.fst) =
            rest.map Prod.fst ++ new := by
          rw [henq, List.map_append]
          congr 1
          exact map_fst_entries depth new
        have hnd2 : ((rest ++
            (enqueueChildren v depth (children curr)).1).map
              Prod.fst).Nodup := by
          rw [hmapq2]
          refine List.Nodup.append hndrest hndnew ?_
          intro a ha1 ha2
          exact (hmemnew a ha2).2 (hsub a (by simp [ha1]))
        have hsub2 : ∀ x ∈ (rest ++
            (enqueueChildren v depth (children curr)).1).map Prod.fst,
            x ∈ (enqueueChildren v depth (children curr)).2 := by
          rw [hmapq2, henq]
          intro x hx
          rcases List.mem_append.mp hx with h | h
          · exact Finset.mem_union_left _ (hsub x (by simp [h]))
          · exact Finset.mem_union_right _ (by
              rw [List.mem_toFinset]; exact h)
        obtain ⟨ihnd, ihsub⟩ := ih _ _ hnd2 hsub2
        constructor
        · rw [List.nodup_cons]
          refine ⟨fun hcin => ?_, ihnd⟩
          rcases ihsub curr hcin with h | h
          · rw [hmapq2] at h
            rcases List.mem_append.mp h with h2 | h2
            · exact hcurrnotin h2
            · exact (hmemnew curr h2).2 hcurrv
          · rw [henq] at h
            exact h (Finset.mem_union_left _ hcurrv)
        · intro x hx
          rcases List.mem_cons.mp hx with h | h
          · subst h
            exact Or.inl (by simp)
          · rcases ihsub x h with h2 | h2
            · rw [hmapq2] at h2
              rcases List.mem_append.mp h2 with h3 | h3
              · exact Or.inl (by simp [h3])
              · exact Or.inr (hmemnew x h3).2
            · rw [henq] at h2
              exact Or.inr (fun hv => h2 (Finset.mem_union_left _ hv))
      · rw [if_neg hd]
        have hsub2 : ∀ x ∈ rest.map Prod.fst, x ∈ v := by
          intro x hx
          exact hsub x (by simp [hx])
        obtain ⟨ihnd, ihsub⟩ := ih rest v hndrest hsub2
        constructor
        · rw [List.nodup_cons]
          refine ⟨fun hcin => ?_, ihnd⟩
          rcases ihsub curr hcin with h | h
          · exact hcurrnotin h
          · exact h hcurrv
        · intro x hx
          rcases List.mem_cons.mp hx with h | h
          · subst h
            exact Or.inl (by simp)
          · rcases ihsub x h with h2 | h2
            · exact Or.inl (by simp [h2])
            · exact Or.inr h2

/-- Concrete three-category hierarchy containing the cycle a→b→c→a
(dense ids 0→1→2→0), as in the cycle-tolerance scenario. -/
def cycleGraph : WikiGraph :=
  { children := [[1], [2], [0]]
    catArticles := [∅, ∅, ∅]
    catDenseToOriginal := [10, 11, 12]
    catNames := ["a", "b", "c"]
    catOriginalToDense := fun q =>
      if q = 10 then some 0
      else if q = 11 then some 1
      else if q = 12 then some 2
      else none }

/-- C7: every graph traversal terminates on every finite hierarchy,
including cyclic ones, and expands each category node at most once per
query.  Formally: (i) and (ii) the articles and descendants worklist loops
give the same result under any fuel at or above the explicit bound, i.e.
they complete within boundedly many iterations; (iii) the sequence of
popped (expanded) nodes never repeats a node; (iv) on the concrete cycle
a→b→c→a, the traversal from a terminates having popped exactly a, b, c,
once each. -/
theorem traversals_terminate_and_expand_once (g : WikiGraph)
    (m startNode f1 f2 : Nat)
    (h1 : traversalFuel g ≤ f1) (h2 : traversalFuel g ≤ f2) :
    (bfsGo (childrenOf g) m (articlesCollect g) f1
        [(startNode, 0)] {startNode} ∅ =
      bfsGo (childrenOf g) m (articlesCollect g) f2
        [(startNode, 0)] {startNode} ∅) ∧
    (bfsGo (childrenOf g) m (descCollect g startNode) f1
        [(startNode, 0)] {startNode} [] =
      bfsGo (childrenOf g) m (descCollect g startNode) f2
        [(startNode, 0)] {startNode} []) ∧
    (bfsTrace (childrenOf g) m f1 [(startNode, 0)] {startNode}).Nodup ∧
    bfsTrace (childrenOf cycleGraph) 255 9 [(0, 0)] {0} = [0, 1, 2] := by
  refine ⟨?_, ?_, ?_, ?_⟩
  · rw [bfsGo_traversalFuel_eq_run g m (articlesCollect g) startNode f1 h1,
      bfsGo_traversalFuel_eq_run g m (articlesCollect g) startNode f2 h2]
  · rw [bfsGo_traversalFuel_eq_run g m (descCollect g startNode) startNode
        f1 h1,
      bfsGo_traversalFuel_eq_run g m (descCollect g startNode) startNode
        f2 h2]
  · exact (bfsTrace_nodup (childrenOf g) m f1 [(startNode, 0)] {startNode}
      (by simp) (by simp)).1
  · decide

/-- Witness for `traversals_terminate_and_expand_once` on the concrete
cyclic hierarchy with fuels 9 and 20. -/
theorem traversals_terminate_and_expand_once_witness :
    (traversalFuel cycleGraph ≤ 9) ∧ (traversalFuel cycleGraph ≤ 20) ∧
    (bfsGo (childrenOf cycleGraph) 255 (articlesCollect cycleGraph) 9
        [(0, 0)] {0} ∅ =
      bfsGo (childrenOf cycleGraph) 255 (articlesCollect cycleGraph) 20
        [(0, 0)] {0} ∅) ∧
    (bfsTrace (childrenOf cycleGraph) 255 9 [(0, 0)] {0}).Nodup :=
  ⟨by decide, by decide,
    (traversals_terminate_and_expand_once cycleGraph 255 0 9 20
      (by decide) (by decide)).1,
    (traversals_terminate_and_expand_once cycleGraph 255 0 9 20
      (by decide) (by decide)).2.2.1⟩

/-! ## Category trend (`PageViewEngine::get_category_trend`,
`topictrend_core/src/pageview_engine.rs`)

Dates are modelled as day numbers (`NaiveDate::succ` = `+ 1`); the window
[start, end] is inclusive on both ends.  `dailyViews` models the engine's
`daily_views` store after `load_history_for_date_range`: a date whose view
file is missing stays absent (`none`). -/

/-- The dates of the inclusive window [start, end] in ascending order. -/
def windowDates (startDate endDate : Nat) : List Nat :=
  List.range' startDate (endDate + 1 - startDate)

/-- Per-day total of the trend loop: sum the day vector over the article
mask (an index beyond the vector's end contributes nothing), 0 for a date
with no vector. -/
def dayTotal (dailyViews : Nat → Option (List Nat)) (mask : Finset Nat)
    (d : Nat) : Nat :=
  match dailyViews d with
  | some dayData => ∑ i ∈ mask, dayData.getD i 0
  | none => 0

/-- Embedding of `PageViewEngine::get_category_trend`: compute the dense
article mask (empty mask → early return of the empty vector), then emit one
(date, total) pair per date of the window. -/
def getCategoryTrend (g : WikiGraph) (dailyViews : Nat → Option (List Nat))
    (categoryQid depth startDate endDate : Nat) : List (Nat × Nat) :=
  let articleMask := getArticlesInCategory g categoryQid depth
  if articleMask = ∅ then []
  else
    (windowDates startDate endDate).map
      (fun d => (d, dayTotal dailyViews articleMask d))

/-- Graph with a known category QID 7 (dense id 0) that has no member
articles. -/
def emptyCatGraph : WikiGraph :=
  { children := [[]]
    catArticles := [∅]
    catDenseToOriginal := [7]
    catNames := ["empty"]
    catOriginalToDense := fun q => if q = 7 then some 0 else none }

/-- C3 (refuted as stated): for the known category QID 7 whose article set
is empty, the window [100, 100] has one date but `get_category_trend`
returns the empty vector (the source returns early on an empty mask), not
one (date, 0) pair per date. -/
theorem getCategoryTrend_empty_category_counterexample :
    (emptyCatGraph.catOriginalToDense 7).isSome = true ∧
    windowDates 100 100 = [100] ∧
    getCategoryTrend emptyCatGraph (fun _ => none) 7 0 100 100 = [] := by
  refine ⟨by decide, by decide, ?_⟩
  decide

theorem map_fst_graph (f : Nat → Nat) (l : List Nat) :
    (l.map (fun d => (d, f d))).map Prod.fst = l := by
  induction l with
  | nil => rfl
  | cons a tl ihl => simp [ihl]

/-- C3 (amended): for every category QID and window, provided the
category's article set at the given depth is non-empty,
`get_category_trend` returns exactly one (date, total) pair per date of the
window, in ascending date order, where the total is the sum over the
article set of that day's view vector and 0 for a date whose view file is
missing. -/
theorem getCategoryTrend_one_pair_per_date (g : WikiGraph)
    (dailyViews : Nat → Option (List Nat))
    (categoryQid depth startDate endDate : Nat)
    (hmask : getArticlesInCategory g categoryQid depth ≠ ∅) :
    ((getCategoryTrend g dailyViews categoryQid depth startDate
        endDate).map Prod.fst = windowDates startDate endDate) ∧
    List.Sorted (· < ·)
      ((getCategoryTrend g dailyViews categoryQid depth startDate
        endDate).map Prod.fst) ∧
    (∀ p ∈ getCategoryTrend g dailyViews categoryQid depth startDate
        endDate,
      p.2 = dayTotal dailyViews
        (getArticlesInCategory g categoryQid depth) p.1) ∧
    (∀ d, dailyViews d = none →
      dayTotal dailyViews (getArticlesInCategory g categoryQid depth) d
        = 0) := by
  unfold getCategoryTrend
  rw [if_neg hmask]
  have hfst : ((windowDates startDate endDate).map
      (fun d => (d, dayTotal dailyViews
        (getArticlesInCategory g categoryQid depth) d))).map Prod.fst =
      windowDates startDate endDate :=
    map_fst_graph _ _
  refine ⟨hfst, ?_, ?_, ?_⟩
  · rw [hfst]
    exact List.pairwise_lt_range' startDate (endDate + 1 - startDate)
  · intro p hp
    obtain ⟨d, _, hd2⟩ := List.mem_map.mp hp
    rw [← hd2]
  · intro d hd
    unfold dayTotal
    rw [hd]

/-- Witness for `getCategoryTrend_one_pair_per_date`: a category (QID 7)
with one member article (dense 0), a loaded day 5 with 100 views and an
absent day 6; the window [5, 6] yields the pairs (5, 100), (6, 0). -/
def oneArticleGraph : WikiGraph :=
  { children := [[]]
    catArticles := [{0}]
    catDenseToOriginal := [7]
    catNames := ["cat"]
    catOriginalToDense := fun q => if q = 7 then some 0 else none }

theorem getCategoryTrend_one_pair_per_date_witness :
    (getArticlesInCategory oneArticleGraph 7 0 ≠ ∅) ∧
    (((getCategoryTrend oneArticleGraph
        (fun d => if d = 5 then some [100] else none) 7 0 5 6).map
          Prod.fst = windowDates 5 6) ∧
      List.Sorted (· < ·)
        ((getCategoryTrend oneArticleGraph
          (fun d => if d = 5 then some [100] else none) 7 0 5 6).map
            Prod.fst) ∧
      (∀ p ∈ getCategoryTrend oneArticleGraph
          (fun d => if d = 5 then some [100] else none) 7 0 5 6,
        p.2 = dayTotal (fun d => if d = 5 then some [100] else none)
          (getArticlesInCategory oneArticleGraph 7 0) p.1) ∧
      (∀ d, (fun d => if d = 5 then some [100] else none) d = none →
        dayTotal (fun d => if d = 5 then some [100] else none)
          (getArticlesInCategory oneArticleGraph 7 0) d = 0)) ∧
    getCategoryTrend oneArticleGraph
      (fun d => if d = 5 then some [100] else none) 7 0 5 6 =
      [(5, 100), (6, 0)] :=
  ⟨by decide,
    getCategoryTrend_one_pair_per_date oneArticleGraph
      (fun d => if d = 5 then some [100] else none) 7 0 5 6 (by decide),
    by decide⟩

/-! ## Day-view binary files (`load_bin_file`,
`topictrend_core/src/pageview_engine.rs`)

The loader reads the whole file into a byte buffer, checks only the 4-byte
magic `VIEW` (bytes 0..4), then reinterprets everything from byte 16 as
little-endian `u32` values.  The version (bytes 4..8) and count (bytes
8..16) header fields are never read.  Panics — the slice `buffer[0..4]` on a
file shorter than 4 bytes, the explicit panic on a bad magic, and the slice
`buffer[16..]` on a file shorter than 16 bytes — are modelled as `none`.
The `expected_size` argument only triggers a log line and never affects the
result. -/

/-- Little-endian `u32` from 4 bytes. -/
def leU32 (b0 b1 b2 b3 : Nat) : Nat :=
  b0 + 256 * b1 + 65536 * b2 + 16777216 * b3

/-- Decode every complete 4-byte little-endian word, dropping a trailing
incomplete word (the `align_to` tail). -/
def decodeU32s : List Nat → List Nat
  | b0 :: b1 :: b2 :: b3 :: rest => leU32 b0 b1 b2 b3 :: decodeU32s rest
  | _ => []

/-- Embedding of `load_bin_file` over the file's byte content. -/
def loadBinFile (buffer : List Nat) (expectedSize : Nat) : Option (List Nat) :=
  if buffer.length < 4 then none
  else if buffer.take 4 ≠ [86, 73, 69, 87] then none
  else if buffer.length < 16 then none
  else
    let body := decodeU32s (buffer.drop 16)
    some (if body.length ≠ expectedSize then body else body)

theorem decodeU32s_length_aux (n : Nat) :
    ∀ l : List Nat, l.length ≤ n → (decodeU32s l).length = l.length / 4 := by
  induction n with
  | zero =>
    intro l hl
    match l with
    | [] => simp [decodeU32s]
  | succ n ih =>
    intro l hl
    match l with
    | [] => simp [decodeU32s]
    | [b0] => simp [decodeU32s]
    | [b0, b1] => simp [decodeU32s]
    | [b0, b1, b2] => simp [decodeU32s]
    | b0 :: b1 :: b2 :: b3 :: rest =>
      have hr : (decodeU32s rest).length = rest.length / 4 := by
        apply ih
        simp only [List.length_cons] at hl
        omega
      simp only [decodeU32s, List.length_cons, hr]
      omega

theorem decodeU32s_length (l : List Nat) :
    (decodeU32s l).length = l.length / 4 :=
  decodeU32s_length_aux l.length l (le_refl _)

/-- C10: `load_bin_file` validates only the magic: for every buffer of
length ≥ 16 whose first 4 bytes are `VIEW`, it returns the words decoded
from byte 16 on — a vector of exactly (length − 16)/4 entries, whatever the
version and count fields at bytes 4..16 say and whatever `expected_size`
is passed — and a file shorter than 16 bytes (here, the bare 4-byte magic)
makes it panic instead of returning an error. -/
theorem loadBinFile_spec :
    (∀ (buffer : List Nat) (expectedSize : Nat),
      16 ≤ buffer.length → buffer.take 4 = [86, 73, 69, 87] →
      loadBinFile buffer expectedSize =
          some (decodeU32s (buffer.drop 16)) ∧
        (decodeU32s (buffer.drop 16)).length = (buffer.length - 16) / 4) ∧
    (([86, 73, 69, 87] : List Nat).length < 16 ∧
      loadBinFile [86, 73, 69, 87] 4 = none) := by
  constructor
  · intro buffer expectedSize hlen hmagic
    constructor
    · unfold loadBinFile
      rw [if_neg (by omega), if_neg (by rw [hmagic]; simp), if_neg (by omega)]
      simp
    · rw [decodeU32s_length, List.length_drop]
  · exact ⟨by decide, by decide⟩

/-- Witness for `loadBinFile_spec` on a concrete 20-byte file whose count
field (bytes 8..16) says 0 while the byte length implies one entry: the
loader returns the single entry 100 anyway. -/
theorem loadBinFile_spec_witness :
    (16 ≤ ([86, 73, 69, 87, 1, 0, 0, 0, 0, 0, 0, 0, 0, 0, 0, 0,
        100, 0, 0, 0] : List Nat).length) ∧
    (([86, 73, 69, 87, 1, 0, 0, 0, 0, 0, 0, 0, 0, 0, 0, 0,
        100, 0, 0, 0] : List Nat).take 4 = [86, 73, 69, 87]) ∧
    (loadBinFile [86, 73, 69, 87, 1, 0, 0, 0, 0, 0, 0, 0, 0, 0, 0, 0,
        100, 0, 0, 0] 4 =
        some (decodeU32s ([86, 73, 69, 87, 1, 0, 0, 0, 0, 0, 0, 0, 0, 0,
          0, 0, 100, 0, 0, 0].drop 16)) ∧
      (decodeU32s ([86, 73, 69, 87, 1, 0, 0, 0, 0, 0, 0, 0, 0, 0, 0, 0,
        100, 0, 0, 0].drop 16)).length =
        (([86, 73, 69, 87, 1, 0, 0, 0, 0, 0, 0, 0, 0, 0, 0, 0,
          100, 0, 0, 0] : List Nat).length - 16) / 4) ∧
    decodeU32s ([86, 73, 69, 87, 1, 0, 0, 0, 0, 0, 0, 0, 0, 0, 0, 0,
      100, 0, 0, 0].drop 16) = [100] :=
  ⟨by decide, by decide,
    loadBinFile_spec.1 [86, 73, 69, 87, 1, 0, 0, 0, 0, 0, 0, 0, 0, 0, 0, 0,
      100, 0, 0, 0] 4 (by decide) (by decide),
    by decide⟩

/-! ## Top categories (`PageViewEngine::get_top_categories`,
`topictrend_core/src/pageview_engine.rs`)

The query has three phases.  Aggregation: element-wise `u32` addition of
each loaded day vector into `article_views` (`u32` wrap-around is modelled
by `% 2^32`).  The addition indexes `article_views` without a bounds check,
so a loaded day vector longer than `num_articles` makes the loop panic —
reachable, since `load_bin_file` adopts a vector of unexpected length with
only a warning; the aggregation is therefore `Option`-valued, `none`
modelling that panic.  Scatter: for each article with non-zero windowed
views, add
those views to the score of every category in the article's
`article_cats` list (a `u64` accumulator: it cannot wrap because it is a
sum of fewer than `2^32` terms each below `2^32`, so it is modelled as
plain `Nat`) and record the (article, views) contributor pair.  Ranking: a
stable sort of the dense category ids `0..num_cats` by score descending
(Rust's `sort_by` is stable, so ties keep ascending dense-id order; the
embedding uses insertion sort with the non-strict descending relation,
which realizes exactly that stable sort), then take `top_n` and drop
zero-score categories.  The cache lookup around the computation is omitted:
the claim is about the computed (and then cached) value. -/

/-- Definition of 2^32, the wrap-around modulus of a `u32` accumulator. -/
def U32LIMIT : Nat := 4294967296

/-- One indexed write of the aggregation loop:
`article_views[article_dense_id] += views` with `u32` wrap-around.  The
indexing is unchecked in the source, so an index at or beyond the length of
`article_views` panics (modelled as `none`); it propagates an earlier
panic. -/
def addDayViewsStep (av : Option (List Nat)) (p : Nat × Nat) :
    Option (List Nat) :=
  match av with
  | none => none
  | some av =>
    if p.1 < av.length then
      some (av.set p.1 ((av.getD p.1 0 + p.2) % U32LIMIT))
    else none

/-- Element-wise addition of one day vector into `article_views`
(`for (article_dense_id, &views) in day_vec.iter().enumerate()`): `none`
models the index-out-of-bounds panic raised when the day vector is longer
than `article_views`. -/
def addDayViews (av dayVec : List Nat) : Option (List Nat) :=
  dayVec.enum.foldl addDayViewsStep (some av)

/-- One date of the aggregation phase: a date with no loaded vector is
skipped, a loaded vector is added (propagating its possible
out-of-bounds panic). -/
def aggStep (dailyViews : Nat → Option (List Nat))
    (av : Option (List Nat)) (d : Nat) : Option (List Nat) :=
  match av with
  | none => none
  | some av =>
    match dailyViews d with
    | some dayVec => addDayViews av dayVec
    | none => some av

/-- Aggregation phase: start from `vec![0; num_articles]` and add every
loaded day of the window; `none` models the panic on a day vector longer
than `num_articles`. -/
def aggregateViews (numArticles : Nat)
    (dailyViews : Nat → Option (List Nat)) (dates : List Nat) :
    Option (List Nat) :=
  dates.foldl (aggStep dailyViews) (some (List.replicate numArticles 0))

/-- The aggregation-phase output for a window: per-article windowed views,
or `none` when some loaded day vector of the window overruns the article
count. -/
def articleWindowViews (numArticles : Nat)
    (dailyViews : Nat → Option (List Nat)) (startDate endDate : Nat) :
    Option (List Nat) :=
  aggregateViews numArticles dailyViews (windowDates startDate endDate)

/-- The views of article `i` recorded for date `d` (0 when the date has no
vector or the vector is too short). -/
def viewsOn (dailyViews : Nat → Option (List Nat)) (d i : Nat) : Nat :=
  match dailyViews d with
  | some v => v.getD i 0
  | none => 0

theorem addDayViews_from (dv : List Nat) :
    ∀ (n : Nat) (av : List Nat), n + dv.length ≤ av.length →
    ∃ av2, (dv.enumFrom n).foldl addDayViewsStep (some av) = some av2 ∧
      av2.length = av.length ∧
      ∀ i, av2.getD i 0 =
        if n ≤ i ∧ i < n + dv.length then
          (av.getD i 0 + dv.getD (i - n) 0) % U32LIMIT
        else av.getD i 0 := by
  induction dv with
  | nil =>
    intro n av _
    refine ⟨av, rfl, rfl, fun i => ?_⟩
    rw [if_neg (by simp only [List.length_nil]; omega)]
  | cons x dv ih =>
    intro n av hlen
    have hnlt : n < av.length := by
      simp only [List.length_cons] at hlen
      omega
    rw [List.enumFrom_cons, List.foldl_cons]
    have hstep : addDayViewsStep (some av) (n, x) =
        some (av.set n ((av.getD n 0 + x) % U32LIMIT)) := by
      unfold addDayViewsStep
      dsimp only
      rw [if_pos hnlt]
    rw [hstep]
    obtain ⟨av2, heq, hlen2, hchar⟩ := ih (n + 1)
      (av.set n ((av.getD n 0 + x) % U32LIMIT))
      (by rw [List.length_set]
          simp only [List.length_cons] at hlen
          omega)
    refine ⟨av2, heq, by rw [hlen2, List.length_set], fun i => ?_⟩
    rw [hchar i]
    by_cases hin : i = n
    · subst hin
      rw [if_neg (by omega),
        if_pos (by simp only [List.length_cons]; omega)]
      rw [getD_set_self av i _ 0 hnlt]
      simp
    · rw [getD_set_ne av i n _ 0 (fun h => hin h.symm)]
      by_cases hrange : n + 1 ≤ i ∧ i < n + 1 + dv.length
      · rw [if_pos hrange, if_pos (by simp only [List.length_cons]; omega)]
        have hidx : i - n = (i - (n + 1)) + 1 := by omega
        rw [hidx, List.getD_cons_succ]
      · rw [if_neg hrange,
          if_neg (by simp only [List.length_cons]; omega)]

/-- A day vector no longer than `article_views` is added without a panic,
and the addition is element-wise with `u32` wrap-around. -/
theorem addDayViews_spec (av dv : List Nat) (hlen : dv.length ≤ av.length) :
    ∃ av2, addDayViews av dv = some av2 ∧ av2.length = av.length ∧
      ∀ i, av2.getD i 0 =
        if i < dv.length then (av.getD i 0 + dv.getD i 0) % U32LIMIT
        else av.getD i 0 := by
  unfold addDayViews
  have henum : dv.enum = dv.enumFrom 0 := rfl
  obtain ⟨av2, heq, hlen2, hchar⟩ := addDayViews_from dv 0 av (by omega)
  rw [henum, heq]
  refine ⟨av2, rfl, hlen2, fun i => ?_⟩
  rw [hchar i]
  by_cases hi : i < dv.length
  · rw [if_pos (by omega), if_pos hi]
    simp
  · rw [if_neg (by omega), if_neg hi]

/-- A day vector longer than `article_views` makes the aggregation loop
panic: the write at index `article_views.length` is out of bounds. -/
theorem addDayViews_panic (av dv : List Nat)
    (hlen : av.length < dv.length) : addDayViews av dv = none := by
  unfold addDayViews
  have henum : dv.enum = dv.enumFrom 0 := rfl
  rw [henum]
  have hgen : ∀ (dv2 : List Nat) (n : Nat) (av2 : List Nat),
      n ≤ av2.length → av2.length < n + dv2.length →
      (dv2.enumFrom n).foldl addDayViewsStep (some av2) = none := by
    intro dv2
    induction dv2 with
    | nil =>
      intro n av2 hn h
      simp only [List.length_nil] at h
      omega
    | cons x dv2 ih =>
      intro n av2 hn h
      rw [List.enumFrom_cons, List.foldl_cons]
      by_cases hnlt : n < av2.length
      · have hstep : addDayViewsStep (some av2) (n, x) =
            some (av2.set n ((av2.getD n 0 + x) % U32LIMIT)) := by
          unfold addDayViewsStep
          dsimp only
          rw [if_pos hnlt]
        rw [hstep]
        refine ih (n + 1) _ (by rw [List.length_set]; omega) ?_
        rw [List.length_set]
        simp only [List.length_cons] at h
        omega
      · have hstep : addDayViewsStep (some av2) (n, x) = none := by
          unfold addDayViewsStep
          dsimp only
          rw [if_neg hnlt]
        rw [hstep]
        have hnone : ∀ l : List (Nat × Nat),
            l.foldl addDayViewsStep none = none := by
          intro l
          induction l with
          | nil => rfl
          | cons p ps ihp => exact ihp
        exact hnone _
  exact hgen dv 0 av (by omega) (by omega)

theorem aggStep_none_day (dailyViews : Nat → Option (List Nat))
    (av : List Nat) (d : Nat) (hd : dailyViews d = none) :
    aggStep dailyViews (some av) d = some av := by
  unfold aggStep
  rw [hd]

theorem aggStep_some_day (dailyViews : Nat → Option (List Nat))
    (av v : List Nat) (d : Nat) (hd : dailyViews d = some v) :
    aggStep dailyViews (some av) d = addDayViews av v := by
  unfold aggStep
  rw [hd]

theorem aggregateViews_fold_spec (dailyViews : Nat → Option (List Nat))
    (dates : List Nat) :
    ∀ av : List Nat,
    (∀ d ∈ dates, ∀ v, dailyViews d = some v → v.length ≤ av.length) →
    ∃ av2, dates.foldl (aggStep dailyViews) (some av) = some av2 ∧
      av2.length = av.length ∧
      ∀ i, i < av.length → av.getD i 0 < U32LIMIT →
        av2.getD i 0 =
          (av.getD i 0 +
            (dates.map (fun d => viewsOn dailyViews d i)).sum) %
            U32LIMIT := by
  induction dates with
  | nil =>
    intro av _
    refine ⟨av, rfl, rfl, fun i _ hlt => ?_⟩
    simp only [List.map_nil, List.sum_nil, Nat.add_zero]
    exact (Nat.mod_eq_of_lt hlt).symm
  | cons d dates ihd =>
    intro av hdays
    simp only [List.foldl_cons]
    cases hd : dailyViews d with
    | none =>
      rw [aggStep_none_day dailyViews av d hd]
      obtain ⟨av2, heq, hlen2, hchar⟩ := ihd av
        (fun d2 hd2 v hv => hdays d2 (by simp [hd2]) v hv)
      refine ⟨av2, heq, hlen2, fun i hi hlt => ?_⟩
      rw [hchar i hi hlt]
      simp only [List.map_cons, List.sum_cons, viewsOn, hd]
      simp
    | some v =>
      rw [aggStep_some_day dailyViews av v d hd]
      have hv : v.length ≤ av.length := hdays d (by simp) v hd
      obtain ⟨av1, heq1, hlen1, hchar1⟩ := addDayViews_spec av v hv
      rw [heq1]
      obtain ⟨av2, heq2, hlen2, hchar2⟩ := ihd av1
        (fun d2 hd2 v2 hv2 => by
          rw [hlen1]
          exact hdays d2 (by simp [hd2]) v2 hv2)
      refine ⟨av2, heq2, by rw [hlen2, hlen1], fun i hi hlt => ?_⟩
      have hlt1 : av1.getD i 0 < U32LIMIT := by
        rw [hchar1 i]
        by_cases hiv : i < v.length
        · rw [if_pos hiv]
          exact Nat.mod_lt _ (by unfold U32LIMIT; omega)
        · rw [if_neg hiv]
          exact hlt
      rw [hchar2 i (by omega) hlt1, hchar1 i]
      simp only [List.map_cons, List.sum_cons, viewsOn, hd]
      by_cases hiv : i < v.length
      · rw [if_pos hiv, Nat.mod_add_mod, Nat.add_assoc]
      · rw [if_neg hiv]
        have hz : v.getD i 0 = 0 := by
          rw [List.getD_eq_getElem?_getD,
            List.getElem?_eq_none_iff.mpr (by omega)]
          rfl
        rw [hz]
        congr 1
        omega

/-- Per-article windowed views: when no loaded day vector of the window is
longer than `num_articles` (otherwise the aggregation loop panics), the
aggregation phase succeeds and computes, at each dense article id, the
`u32` (wrap-around) sum of that article's views over the loaded days of
the window. -/
theorem articleWindowViews_spec (numArticles : Nat)
    (dailyViews : Nat → Option (List Nat)) (startDate endDate : Nat)
    (hdays : ∀ d v, dailyViews d = some v → v.length ≤ numArticles) :
    ∃ av, articleWindowViews numArticles dailyViews startDate endDate =
        some av ∧
      av.length = numArticles ∧
      ∀ i, i < numArticles → av.getD i 0 =
        ((windowDates startDate endDate).map
          (fun d => viewsOn dailyViews d i)).sum % U32LIMIT := by
  unfold articleWindowViews aggregateViews
  obtain ⟨av2, heq, hlen, hchar⟩ := aggregateViews_fold_spec dailyViews
    (windowDates startDate endDate) (List.replicate numArticles 0)
    (fun d _ v hv => by rw [List.length_replicate]; exact hdays d v hv)
  refine ⟨av2, heq, by rw [hlen, List.length_replicate], fun i hi => ?_⟩
  rw [hchar i (by rw [List.length_replicate]; exact hi)
    (by rw [List.getD_eq_getElem?_getD, List.getElem?_replicate, if_pos hi]
        simp only [Option.getD_some]
        unfold U32LIMIT
        omega)]
  rw [List.getD_eq_getElem?_getD, List.getElem?_replicate, if_pos hi]
  simp


/-- Inner scatter loop over one article's category list: add the article's
windowed views to each listed category's score (the source uses unchecked
indexing, valid because the build keeps every stored dense id below
`num_cats`) and record the (article, views) contributor pair. -/
def scatterCats (artId w : Nat) (st : List Nat × List (List (Nat × Nat)))
    (cl : List Nat) : List Nat × List (List (Nat × Nat)) :=
  cl.foldl
    (fun st2 c =>
      (st2.1.set c (st2.1.getD c 0 + w),
       st2.2.set c (st2.2.getD c [] ++ [(artId, w)])))
    st

/-- One article of the scatter phase: articles with zero windowed views are
skipped. -/
def scatterStep (articleCats : Nat → List Nat)
    (st : List Nat × List (List (Nat × Nat))) (p : Nat × Nat) :
    List Nat × List (List (Nat × Nat)) :=
  if p.2 = 0 then st else scatterCats p.1 p.2 st (articleCats p.1)

/-- Scatter phase of `get_top_categories`: fold every (dense id, windowed
views) pair into (`cat_scores`, `cat_articles`). -/
def scatter (numCats : Nat) (articleCats : Nat → List Nat)
    (articleViews : List Nat) : List Nat × List (List (Nat × Nat)) :=
  articleViews.enum.foldl (scatterStep articleCats)
    (List.replicate numCats 0, List.replicate numCats [])

/-- The sum of the windowed views of the direct member articles of category
`c`: the articles whose `article_cats` list contains `c` (a dense article
id is its index in the aggregated view vector). -/
def directMemberTotal (articleCats : Nat → List Nat)
    (articleViews : List Nat) (c : Nat) : Nat :=
  (articleViews.enum.map
    (fun p => if c ∈ articleCats p.1 then p.2 else 0)).sum

theorem scatterCats_score (c : Nat) (cl : List Nat) :
    ∀ (artId w : Nat) (st : List Nat × List (List (Nat × Nat))),
    (∀ e ∈ cl, e < st.1.length) → cl.Nodup →
    ((scatterCats artId w st cl).1.getD c 0 =
      st.1.getD c 0 + (if c ∈ cl then w else 0)) ∧
    (scatterCats artId w st cl).1.length = st.1.length := by
  induction cl with
  | nil =>
    intro artId w st _ _
    simp [scatterCats]
  | cons e cl ih =>
    intro artId w st hbound hnd
    have helt : e < st.1.length := hbound e (by simp)
    have hstep : scatterCats artId w st (e :: cl) =
        scatterCats artId w
          (st.1.set e (st.1.getD e 0 + w),
           st.2.set e (st.2.getD e [] ++ [(artId, w)])) cl := rfl
    rw [hstep]
    rw [List.nodup_cons] at hnd
    have hbound2 : ∀ x ∈ cl,
        x < (st.1.set e (st.1.getD e 0 + w),
          st.2.set e (st.2.getD e [] ++ [(artId, w)])).1.length := by
      intro x hx
      simp only [List.length_set]
      exact hbound x (by simp [hx])
    obtain ⟨hsc, hlen⟩ := ih artId w _ hbound2 hnd.2
    constructor
    · rw [hsc]
      by_cases hce : c = e
      · subst hce
        rw [getD_set_self _ _ _ _ helt, if_neg hnd.1,
          if_pos (List.mem_cons_self c cl)]
        omega
      · rw [getD_set_ne _ _ _ _ _ (fun h => hce h.symm)]
        by_cases hcl : c ∈ cl
        · rw [if_pos hcl, if_pos (by simp [hcl])]
        · rw [if_neg hcl, if_neg (by simp [hce, hcl])]
    · rw [hlen]
      simp

theorem scatter_fold_score (articleCats : Nat → List Nat) (c : Nat)
    (plist : List (Nat × Nat)) :
    ∀ st : List Nat × List (List (Nat × Nat)),
    (∀ i e, e ∈ articleCats i → e < st.1.length) →
    (∀ i, (articleCats i).Nodup) →
    ((plist.foldl (scatterStep articleCats) st).1.getD c 0 =
      st.1.getD c 0 +
        (plist.map (fun p => if c ∈ articleCats p.1 then p.2 else 0)).sum) ∧
    (plist.foldl (scatterStep articleCats) st).1.length = st.1.length := by
  induction plist with
  | nil =>
    intro st _ _
    simp
  | cons p ps ih =>
    intro st hbound hnodup
    simp only [List.foldl_cons, List.map_cons, List.sum_cons]
    by_cases hz : p.2 = 0
    · have hstep : scatterStep articleCats st p = st := by
        unfold scatterStep
        rw [if_pos hz]
      rw [hstep]
      obtain ⟨hsc, hlen⟩ := ih st hbound hnodup
      refine ⟨?_, hlen⟩
      rw [hsc, hz]
      simp
    · have hstep : scatterStep articleCats st p =
          scatterCats p.1 p.2 st (articleCats p.1) := by
        unfold scatterStep
        rw [if_neg hz]
      rw [hstep]
      obtain ⟨hsc1, hlen1⟩ := scatterCats_score c (articleCats p.1) p.1 p.2
        st (fun e he => hbound p.1 e he) (hnodup p.1)
      obtain ⟨hsc2, hlen2⟩ := ih (scatterCats p.1 p.2 st (articleCats p.1))
        (fun i e he => by rw [hlen1]; exact hbound i e he) hnodup
      refine ⟨?_, by rw [hlen2, hlen1]⟩
      rw [hsc2, hsc1, Nat.add_assoc]

/-- Scatter-phase correctness: under the build invariants (each article's
category list is duplicate-free and its entries are below `num_cats`), the
score of every category is exactly the sum of the windowed views of its
direct member articles. -/
theorem scatter_score (numCats : Nat) (articleCats : Nat → List Nat)
    (articleViews : List Nat)
    (hbound : ∀ i e, e ∈ articleCats i → e < numCats)
    (hnodup : ∀ i, (articleCats i).Nodup) (c : Nat) (hc : c < numCats) :
    (scatter numCats articleCats articleViews).1.getD c 0 =
      directMemberTotal articleCats articleViews c ∧
    (scatter numCats articleCats articleViews).1.length = numCats := by
  unfold scatter directMemberTotal
  obtain ⟨hsc, hlen⟩ := scatter_fold_score articleCats c articleViews.enum
    (List.replicate numCats 0, List.replicate numCats [])
    (fun i e he => by rw [List.length_replicate]; exact hbound i e he)
    hnodup
  refine ⟨?_, by rw [hlen, List.length_replicate]⟩
  rw [hsc, List.getD_eq_getElem?_getD, List.getElem?_replicate, if_pos hc]
  simp

/-- Ranking phase, sorting step: the source fills `ranked` with `0..num_cats`
and stable-sorts it by score descending (`ranked.sort_by(|a, b|
cat_scores[b].cmp(&cat_scores[a]))`; Rust's `sort_by` is stable).  Insertion
sort with the non-strict relation "score of b ≤ score of a" realizes
exactly that stable sort: equal-score ids keep their ascending order. -/
def rankedCats (numCats : Nat) (catScores : List Nat) : List Nat :=
  List.insertionSort (fun a b => catScores.getD b 0 ≤ catScores.getD a 0)
    (List.range numCats)

/-- Ranking phase, selection step: keep the first `top_n` ranked ids, then
drop the zero-score ones (`take` before `filter`, as in the source). -/
def topCategoriesRanked (numCats topN : Nat) (catScores : List Nat) :
    List Nat :=
  ((rankedCats numCats catScores).take topN).filter
    (fun idx => decide (0 < catScores.getD idx 0))

/-- Embedding of the output struct `ArticleRank`. -/
structure ArticleRank where
  articleQid : Nat
  totalViews : Nat
deriving Repr, DecidableEq

/-- Embedding of the output struct `CategoryRank`. -/
structure CategoryRank where
  categoryQid : Nat
  totalViews : Nat
  topArticles : List ArticleRank
deriving Repr, DecidableEq

/-- Embedding of `PageViewEngine::get_top_categories` (cache path omitted;
this is the computed and cached value).  `articleCats` is the graph's
article→category adjacency (`article_cats`), read through its checked
neighbor lookup; the (dense → external) id vectors translate the output.
`none` models the aggregation loop's index-out-of-bounds panic on a day
vector longer than `num_articles`.  The contributor lists are sorted by
views descending (`sort_unstable_by`; the embedding picks insertion sort
as one admissible order). -/
def getTopCategories (numArticles numCats : Nat)
    (articleCats : Nat → List Nat)
    (catDenseToOriginal artDenseToOriginal : List Nat)
    (dailyViews : Nat → Option (List Nat)) (startDate endDate topN : Nat) :
    Option (List CategoryRank) :=
  match articleWindowViews numArticles dailyViews startDate endDate with
  | none => none
  | some articleViews =>
    let sc := scatter numCats articleCats articleViews
    some ((topCategoriesRanked numCats topN sc.1).map
      (fun catDenseId =>
        { categoryQid := catDenseToOriginal.getD catDenseId 0
          totalViews := sc.1.getD catDenseId 0
          topArticles :=
            ((List.insertionSort (fun a b : Nat × Nat => b.2 ≤ a.2)
              (sc.2.getD catDenseId [])).take topN).map
              (fun p =>
                { articleQid := artDenseToOriginal.getD p.1 0
                  totalViews := p.2 }) }))

/-- Inserting an id smaller than every element of a tie-ordered,
score-sorted list keeps ties ordered by ascending id. -/
theorem orderedInsert_pairwise_tie (f : Nat → Nat) (a : Nat) :
    ∀ l : List Nat, List.Sorted (fun x y => f y ≤ f x) l →
    l.Pairwise (fun x y => f x = f y → x < y) →
    (∀ b ∈ l, a < b) →
    (List.orderedInsert (fun x y => f y ≤ f x) a l).Pairwise
      (fun x y => f x = f y → x < y) := by
  intro l
  induction l with
  | nil =>
    intro _ _ _
    exact List.pairwise_singleton _ a
  | cons b l ih =>
    intro hsorted hpw hlt
    have hunf : List.orderedInsert (fun x y => f y ≤ f x) a (b :: l) =
        if f b ≤ f a then a :: b :: l
        else b :: List.orderedInsert (fun x y => f y ≤ f x) a l := rfl
    rw [hunf]
    by_cases hab : f b ≤ f a
    · rw [if_pos hab]
      rw [List.pairwise_cons]
      refine ⟨fun x hx _ => hlt x hx, hpw⟩
    · rw [if_neg hab]
      rw [List.pairwise_cons] at hpw ⊢
      rw [List.sorted_cons] at hsorted
      refine ⟨?_, ih hsorted.2 hpw.2 (fun x hx => hlt x (by simp [hx]))⟩
      intro x hx
      rcases (List.mem_orderedInsert _).mp hx with h | h
      · subst h
        intro hfeq
        exact absurd (le_of_eq hfeq) hab
      · exact hpw.1 x h

/-- Stable descending sort of a strictly increasing id list: ties stay in
ascending id order. -/
theorem insertionSort_pairwise_tie (f : Nat → Nat) :
    ∀ l : List Nat, l.Pairwise (· < ·) →
    (List.insertionSort (fun x y => f y ≤ f x) l).Pairwise
      (fun x y => f x = f y → x < y) := by
  haveI hTot : IsTotal Nat (fun x y => f y ≤ f x) :=
    ⟨fun a b => le_total (f b) (f a)⟩
  haveI hTrans : IsTrans Nat (fun x y => f y ≤ f x) :=
    ⟨fun a b c hab hbc => le_trans hbc hab⟩
  intro l
  induction l with
  | nil => intro _; exact List.Pairwise.nil
  | cons a l ih =>
    intro hpw
    rw [List.pairwise_cons] at hpw
    have hunf : List.insertionSort (fun x y => f y ≤ f x) (a :: l) =
        List.orderedInsert (fun x y => f y ≤ f x) a
          (List.insertionSort (fun x y => f y ≤ f x) l) := rfl
    rw [hunf]
    refine orderedInsert_pairwise_tie f a _
      (List.sorted_insertionSort _ l) (ih hpw.2) ?_
    intro b hb
    have hbl : b ∈ l := (List.perm_insertionSort _ l).mem_iff.mp hb
    exact hpw.1 b hbl

/-- C1: provided no loaded day vector of the window is longer than
`num_articles` (otherwise the aggregation loop's unchecked write
`article_views[article_dense_id] += views` panics, which is reachable
because `load_bin_file` adopts a vector of unexpected length with only a
warning), `get_top_categories` returns normally for every window and
limit, with at most `top_n` categories; each returned total equals the sum
of the windowed views of the category's direct member articles (the
article-category relation read through `article_cats`); zero-total
categories are excluded; and the selected dense ids are in
total-descending order with ties in ascending (insertion) dense-id order.
The other hypotheses are the build invariants on `article_cats`: each
article's list is duplicate-free and its entries are valid dense category
ids. -/
theorem getTopCategories_spec (numArticles numCats : Nat)
    (articleCats : Nat → List Nat)
    (catDenseToOriginal artDenseToOriginal : List Nat)
    (dailyViews : Nat → Option (List Nat)) (startDate endDate topN : Nat)
    (hnodup : ∀ i, (articleCats i).Nodup)
    (hbound : ∀ i e, e ∈ articleCats i → e < numCats)
    (hdays : ∀ d v, dailyViews d = some v → v.length ≤ numArticles) :
    ∃ results articleViews,
      articleWindowViews numArticles dailyViews startDate endDate =
        some articleViews ∧
      getTopCategories numArticles numCats articleCats catDenseToOriginal
        artDenseToOriginal dailyViews startDate endDate topN =
        some results ∧
      results.length ≤ topN ∧
      results.map CategoryRank.totalViews =
        (topCategoriesRanked numCats topN
            (scatter numCats articleCats articleViews).1).map
          (directMemberTotal articleCats articleViews) ∧
      (∀ r ∈ results, 0 < r.totalViews) ∧
      (topCategoriesRanked numCats topN
          (scatter numCats articleCats articleViews).1).Pairwise
        (fun a b =>
          directMemberTotal articleCats articleViews b <
            directMemberTotal articleCats articleViews a ∨
          (directMemberTotal articleCats articleViews a =
            directMemberTotal articleCats articleViews b ∧ a < b)) := by
  obtain ⟨av, hav, -, -⟩ :=
    articleWindowViews_spec numArticles dailyViews startDate endDate hdays
  have hGT : getTopCategories numArticles numCats articleCats
      catDenseToOriginal artDenseToOriginal dailyViews startDate endDate
      topN = some
      ((topCategoriesRanked numCats topN
          (scatter numCats articleCats av).1).map
        (fun catDenseId =>
          { categoryQid := catDenseToOriginal.getD catDenseId 0
            totalViews := (scatter numCats articleCats av).1.getD
              catDenseId 0
            topArticles :=
              ((List.insertionSort (fun a b : Nat × Nat => b.2 ≤ a.2)
                ((scatter numCats articleCats av).2.getD catDenseId
                  [])).take topN).map
                (fun p =>
                  { articleQid := artDenseToOriginal.getD p.1 0
                    totalViews := p.2 }) })) := by
    unfold getTopCategories
    rw [hav]
  have hscore : ∀ c, c < numCats →
      (scatter numCats articleCats av).1.getD c 0 =
      directMemberTotal articleCats av c :=
    fun c hc => (scatter_score numCats articleCats av hbound hnodup c hc).1
  have hsub : (topCategoriesRanked numCats topN
      (scatter numCats articleCats av).1).Sublist
      (rankedCats numCats (scatter numCats articleCats av).1) :=
    (List.filter_sublist _).trans (List.take_sublist _ _)
  have hselmem : ∀ c ∈ topCategoriesRanked numCats topN
      (scatter numCats articleCats av).1, c < numCats := by
    intro c hc
    have h1 := hsub.subset hc
    have h2 : c ∈ List.range numCats :=
      (List.perm_insertionSort _ _).mem_iff.mp h1
    exact List.mem_range.mp h2
  have hpos : ∀ c ∈ topCategoriesRanked numCats topN
      (scatter numCats articleCats av).1,
      0 < (scatter numCats articleCats av).1.getD c 0 := by
    intro c hc
    unfold topCategoriesRanked at hc
    have hfil := List.of_mem_filter hc
    simp only [decide_eq_true_eq] at hfil
    exact hfil
  refine ⟨_, av, hav, hGT, ?_, ?_, ?_, ?_⟩
  · rw [List.length_map]
    unfold topCategoriesRanked
    refine le_trans (List.length_filter_le _ _) ?_
    rw [List.length_take]
    exact min_le_left _ _
  · rw [List.map_map]
    apply List.map_congr_left
    intro c hc
    simp only [Function.comp]
    exact hscore c (hselmem c hc)
  · intro r hr
    rw [List.mem_map] at hr
    obtain ⟨c, hc, rfl⟩ := hr
    exact hpos c hc
  · haveI : IsTotal Nat (fun a b =>
        (scatter numCats articleCats av).1.getD b 0 ≤
        (scatter numCats articleCats av).1.getD a 0) :=
      ⟨fun a b => le_total _ _⟩
    haveI : IsTrans Nat (fun a b =>
        (scatter numCats articleCats av).1.getD b 0 ≤
        (scatter numCats articleCats av).1.getD a 0) :=
      ⟨fun a b c hab hbc => le_trans hbc hab⟩
    have hsorted : (rankedCats numCats
        (scatter numCats articleCats av).1).Pairwise
        (fun a b =>
          (scatter numCats articleCats av).1.getD b 0 ≤
          (scatter numCats articleCats av).1.getD a 0) :=
      List.sorted_insertionSort _ _
    have htie := insertionSort_pairwise_tie
      (fun idx => (scatter numCats articleCats av).1.getD idx 0)
      (List.range numCats) (List.pairwise_lt_range numCats)
    have hcomb := List.Pairwise.and hsorted htie
    have hdisj : (rankedCats numCats
        (scatter numCats articleCats av).1).Pairwise
        (fun a b =>
          (scatter numCats articleCats av).1.getD b 0 <
          (scatter numCats articleCats av).1.getD a 0 ∨
          ((scatter numCats articleCats av).1.getD a 0 =
          (scatter numCats articleCats av).1.getD b 0 ∧ a < b)) := by
      refine hcomb.imp ?_
      intro a b h
      rcases Nat.lt_or_ge
        ((scatter numCats articleCats av).1.getD b 0)
        ((scatter numCats articleCats av).1.getD a 0) with hlt | hge
      · exact Or.inl hlt
      · have heq : (scatter numCats articleCats av).1.getD a 0 =
            (scatter numCats articleCats av).1.getD b 0 :=
          le_antisymm hge h.1
        exact Or.inr ⟨heq, h.2 heq⟩
    have hselpw := List.Pairwise.sublist hsub hdisj
    refine hselpw.imp_of_mem ?_
    intro a b ha hb h
    rw [hscore a (hselmem a ha), hscore b (hselmem b hb)] at h
    exact h


/-- Scenario-C article→category lists: articles A1, A2 in C1 (dense 0),
A3 in C2 (dense 1), A4 in C3 (dense 2). -/
def scenarioCats : Nat → List Nat
  | 0 => [0]
  | 1 => [0]
  | 2 => [1]
  | 3 => [2]
  | _ => []

/-- Scenario-C day store: one loaded day with views (100, 200, 300, 600). -/
def scenarioViews : Nat → Option (List Nat) :=
  fun d => if d = 0 then some [100, 200, 300, 600] else none

theorem scenarioCats_nodup : ∀ i, (scenarioCats i).Nodup := by
  intro i
  match i with
  | 0 => decide
  | 1 => decide
  | 2 => decide
  | 3 => decide
  | n + 4 => exact List.nodup_nil

theorem scenarioCats_bound : ∀ i e, e ∈ scenarioCats i → e < 3 := by
  intro i e he
  match i with
  | 0 => simp [scenarioCats] at he; omega
  | 1 => simp [scenarioCats] at he; omega
  | 2 => simp [scenarioCats] at he; omega
  | 3 => simp [scenarioCats] at he; omega
  | n + 4 => simp [scenarioCats] at he

/-- Scenario-C day vectors all fit the four articles, so the aggregation
loop cannot panic. -/
theorem scenarioViews_len : ∀ d v, scenarioViews d = some v →
    v.length ≤ 4 := by
  intro d v h
  unfold scenarioViews at h
  by_cases hd : d = 0
  · rw [if_pos hd] at h
    injection h with h2
    rw [← h2]
    decide
  · rw [if_neg hd] at h
    exact Option.noConfusion h

/-- Witness for `getTopCategories_spec` on the Scenario-C instance: every
day vector fits the four articles, so the query returns normally; the
aggregated window views are (100, 200, 300, 600), scores are C1 = 300,
C2 = 300, C3 = 600, and the ranking is C3 (600), then C1 before C2 on the
300-tie by ascending dense id. -/
theorem getTopCategories_spec_witness :
    (∀ i, (scenarioCats i).Nodup) ∧
    (∀ i e, e ∈ scenarioCats i → e < 3) ∧
    (∀ d v, scenarioViews d = some v → v.length ≤ 4) ∧
    (∃ results articleViews,
      articleWindowViews 4 scenarioViews 0 0 = some articleViews ∧
      getTopCategories 4 3 scenarioCats [30, 31, 32] [1, 2, 3, 4]
        scenarioViews 0 0 10 = some results ∧
      results.length ≤ 10 ∧
      results.map CategoryRank.totalViews =
        (topCategoriesRanked 3 10
            (scatter 3 scenarioCats articleViews).1).map
          (directMemberTotal scenarioCats articleViews) ∧
      (∀ r ∈ results, 0 < r.totalViews) ∧
      (topCategoriesRanked 3 10
          (scatter 3 scenarioCats articleViews).1).Pairwise
        (fun a b =>
          directMemberTotal scenarioCats articleViews b <
            directMemberTotal scenarioCats articleViews a ∨
          (directMemberTotal scenarioCats articleViews a =
            directMemberTotal scenarioCats articleViews b ∧ a < b))) ∧
    articleWindowViews 4 scenarioViews 0 0 = some [100, 200, 300, 600] ∧
    topCategoriesRanked 3 10
      (scatter 3 scenarioCats [100, 200, 300, 600]).1 = [2, 0, 1] :=
  ⟨scenarioCats_nodup, scenarioCats_bound, scenarioViews_len,
    getTopCategories_spec 4 3 scenarioCats [30, 31, 32] [1, 2, 3, 4]
      scenarioViews 0 0 10 scenarioCats_nodup scenarioCats_bound
      scenarioViews_len,
    by decide, by decide⟩


/-! ## Delta analysis (`DeltaService::get_category_delta` and
`DeltaService::get_article_delta`,
`topictrend_web/src/services/composite/delta_service.rs`)

Both functions share one computation; only the collaborator calls and the
item's name differ, so the embedding is written once, with the
collaborators abstracted: `baseline` and `impact` are the (qid, total)
lists returned by the two top-N queries, `fetchBaseline`/`fetchImpact`
model the windowed-total fallback (`Err` → `none`, which leaves the map
entry absent and the later lookup falls back to 0), and `titles` models the
title lookup with the `Q{qid}` fallback.  The iteration order of the
`HashSet` union is unspecified in Rust; the embedding fixes one admissible
order (first occurrence across baseline then impact).  `delta_percentage`
is an `f64` in the source; it is modelled as an exact rational, which is
faithful to which formula is computed, not to `f64` rounding.
`absolute_delta` is computed with `u64` → `i64` casts and `i64`
subtraction; both are modelled exactly (`i64Of`, `wrap64`). -/

/-- Value semantics of a `u64` → `i64` cast. -/
def i64Of (n : Nat) : Int := if n < 9223372036854775808 then (n : Int)
  else (n : Int) - 18446744073709551616

/-- Wrap-around of `i64` arithmetic. -/
def wrap64 (z : Int) : Int :=
  (z + 9223372036854775808) % 18446744073709551616 - 9223372036854775808

/-- Lookup in a `HashMap` collected from a pair list: the last insertion of
a key wins. -/
def collectLookup (l : List (Nat × Nat)) (q : Nat) : Option Nat :=
  (l.reverse.find? (fun p => p.1 == q)).map Prod.snd

/-- Union of the QIDs of both top lists, in first-occurrence order (one
admissible iteration order of the source's `HashSet`). -/
def unionQids (baseline impact : List (Nat × Nat)) : List Nat :=
  (baseline.map Prod.fst ++ impact.map Prod.fst).dedup

/-- The views finally attributed to `q` on one side: the top-list total if
`q` is in that top list, otherwise the fetched windowed total, otherwise 0
(`unwrap_or(&0)` after a failed fetch). -/
def finalViews (top : List (Nat × Nat)) (fetch : Nat → Option Nat)
    (q : Nat) : Nat :=
  (match collectLookup top q with
   | some v => some v
   | none => fetch q).getD 0

/-- Embedding of the output struct `CategoryDeltaItem` (the article item is
identical except the qid/title field names). -/
structure CategoryDeltaItem where
  categoryQid : Nat
  categoryTitle : String
  baselineViews : Nat
  impactViews : Nat
  deltaPercentage : Rat
  absoluteDelta : Int
deriving Repr, DecidableEq

/-- Embedding of `DeltaService::get_category_delta` steps 2–6 (and,
identically, of `get_article_delta`): union the QIDs, complete both view
maps, compute per-QID deltas, and stable-sort by absolute delta
descending. -/
def getCategoryDelta (baseline impact : List (Nat × Nat))
    (fetchBaseline fetchImpact : Nat → Option Nat)
    (titles : Nat → Option String) : List CategoryDeltaItem :=
  let items := (unionQids baseline impact).map
    (fun q =>
      let b := finalViews baseline fetchBaseline q
      let i := finalViews impact fetchImpact q
      { categoryQid := q
        categoryTitle := (titles q).getD (String.append "Q" (toString q))
        baselineViews := b
        impactViews := i
        deltaPercentage :=
          if b = 0 then (if 0 < i then (100 : Rat) else 0)
          else (((i : Rat) - (b : Rat)) / (b : Rat)) * 100
        absoluteDelta := wrap64 (i64Of i - i64Of b) })
  List.insertionSort
    (fun a b => b.absoluteDelta.natAbs ≤ a.absoluteDelta.natAbs) items

theorem wrap64_eq_self (z : Int) (h1 : -9223372036854775808 ≤ z)
    (h2 : z < 9223372036854775808) : wrap64 z = z := by
  unfold wrap64
  rw [Int.emod_eq_of_lt (by omega) (by omega)]
  omega

/-- C9: for every QID in the union of the baseline and impact top-N sets,
the delta analysis reports `absolute_delta` = impact − baseline as a signed
integer, `delta_percentage` = 100 when baseline = 0 < impact, 0 when
baseline = impact = 0, and 100·(impact − baseline)/baseline otherwise, and
the returned items are sorted by |absolute_delta| descending.  The
hypotheses bound the per-side totals below 2^63 so the `u64` → `i64` casts
are value-preserving; `delta_percentage` is stated over exact rationals. -/
theorem getCategoryDelta_spec (baseline impact : List (Nat × Nat))
    (fetchBaseline fetchImpact : Nat → Option Nat)
    (titles : Nat → Option String)
    (hB : ∀ q ∈ unionQids baseline impact,
      finalViews baseline fetchBaseline q < 9223372036854775808)
    (hI : ∀ q ∈ unionQids baseline impact,
      finalViews impact fetchImpact q < 9223372036854775808) :
    (∀ q ∈ unionQids baseline impact,
      ∃ item ∈ getCategoryDelta baseline impact fetchBaseline fetchImpact
        titles,
      item.categoryQid = q ∧
      item.baselineViews = finalViews baseline fetchBaseline q ∧
      item.impactViews = finalViews impact fetchImpact q ∧
      item.absoluteDelta = (finalViews impact fetchImpact q : Int) -
        (finalViews baseline fetchBaseline q : Int) ∧
      item.deltaPercentage =
        (if finalViews baseline fetchBaseline q = 0 then
          (if 0 < finalViews impact fetchImpact q then (100 : Rat) else 0)
        else
          100 * ((finalViews impact fetchImpact q : Rat) -
              (finalViews baseline fetchBaseline q : Rat)) /
            (finalViews baseline fetchBaseline q : Rat))) ∧
    (getCategoryDelta baseline impact fetchBaseline fetchImpact
        titles).Pairwise
      (fun a b => b.absoluteDelta.natAbs ≤ a.absoluteDelta.natAbs) := by
  constructor
  · intro q hq
    refine ⟨{ categoryQid := q
              categoryTitle :=
                (titles q).getD (String.append "Q" (toString q))
              baselineViews := finalViews baseline fetchBaseline q
              impactViews := finalViews impact fetchImpact q
              deltaPercentage :=
                if finalViews baseline fetchBaseline q = 0 then
                  (if 0 < finalViews impact fetchImpact q then (100 : Rat)
                    else 0)
                else (((finalViews impact fetchImpact q : Rat) -
                    (finalViews baseline fetchBaseline q : Rat)) /
                  (finalViews baseline fetchBaseline q : Rat)) * 100
              absoluteDelta :=
                wrap64 (i64Of (finalViews impact fetchImpact q) -
                  i64Of (finalViews baseline fetchBaseline q)) }, ?_,
      rfl, rfl, rfl, ?_, ?_⟩
    · unfold getCategoryDelta
      rw [(List.perm_insertionSort _ _).mem_iff]
      exact List.mem_map_of_mem _ hq
    · show wrap64 (i64Of (finalViews impact fetchImpact q) -
          i64Of (finalViews baseline fetchBaseline q)) = _
      rw [i64Of, i64Of, if_pos (hI q hq), if_pos (hB q hq)]
      exact wrap64_eq_self _ (by
          have := hI q hq
          have := hB q hq
          omega)
        (by
          have := hI q hq
          have := hB q hq
          omega)
    · show (if finalViews baseline fetchBaseline q = 0 then _ else _) = _
      by_cases hb0 : finalViews baseline fetchBaseline q = 0
      · rw [if_pos hb0, if_pos hb0]
      · rw [if_neg hb0, if_neg hb0, div_mul_eq_mul_div, mul_comm]
  · unfold getCategoryDelta
    haveI : IsTotal CategoryDeltaItem
        (fun a b => b.absoluteDelta.natAbs ≤ a.absoluteDelta.natAbs) :=
      ⟨fun a b => le_total _ _⟩
    haveI : IsTrans CategoryDeltaItem
        (fun a b => b.absoluteDelta.natAbs ≤ a.absoluteDelta.natAbs) :=
      ⟨fun a b c hab hbc => le_trans hbc hab⟩
    exact List.sorted_insertionSort _ _

/-- Witness for `getCategoryDelta_spec` on the Scenario-E instance:
baseline views 100, impact views 150 for QID 1 give absolute delta 50 and
delta percentage 50. -/
theorem getCategoryDelta_spec_witness :
    (∀ q ∈ unionQids [(1, 100)] [(1, 150)],
      finalViews [(1, 100)] (fun _ => none) q < 9223372036854775808) ∧
    (∀ q ∈ unionQids [(1, 100)] [(1, 150)],
      finalViews [(1, 150)] (fun _ => none) q < 9223372036854775808) ∧
    (∀ q ∈ unionQids [(1, 100)] [(1, 150)],
      ∃ item ∈ getCategoryDelta [(1, 100)] [(1, 150)] (fun _ => none)
        (fun _ => none) (fun _ => none),
      item.categoryQid = q ∧
      item.baselineViews = finalViews [(1, 100)] (fun _ => none) q ∧
      item.impactViews = finalViews [(1, 150)] (fun _ => none) q ∧
      item.absoluteDelta = (finalViews [(1, 150)] (fun _ => none) q : Int) -
        (finalViews [(1, 100)] (fun _ => none) q : Int) ∧
      item.deltaPercentage =
        (if finalViews [(1, 100)] (fun _ => none) q = 0 then
          (if 0 < finalViews [(1, 150)] (fun _ => none) q then (100 : Rat)
            else 0)
        else
          100 * ((finalViews [(1, 150)] (fun _ => none) q : Rat) -
              (finalViews [(1, 100)] (fun _ => none) q : Rat)) /
            (finalViews [(1, 100)] (fun _ => none) q : Rat))) ∧
    ((getCategoryDelta [(1, 100)] [(1, 150)] (fun _ => none) (fun _ => none)
        (fun _ => none)).map
      (fun item => (item.categoryQid, item.baselineViews, item.impactViews,
        item.absoluteDelta)) =
      [(1, 100, 150, (50 : Int))]) :=
  ⟨by decide, by decide,
    (getCategoryDelta_spec [(1, 100)] [(1, 150)] (fun _ => none)
      (fun _ => none) (fun _ => none) (by decide) (by decide)).1,
    by decide⟩
